import Mathlib

/-!
Verification of the in-trace sampler span processor
(`processor/intracesampler/processor.go`).

The Go code is shallowly embedded: the nested pdata batch becomes nested
lists, Go maps become last-write-wins association lookups over the insertion
sequence, and the (potentially non-terminating) recursive subtree evaluator
becomes a fuel-indexed function returning `none` on fuel exhaustion.
-/

namespace InTraceSampler

/-- A span: span identity, parent identity, trace identity, plus an opaque
`content` field standing for all remaining span payload. -/
structure Span where
  spanID : Nat
  parentSpanID : Nat
  traceID : Nat
  content : Nat
deriving DecidableEq, Repr

/-- A scope grouping: instrumentation scope name and its spans. -/
structure ScopeSpans where
  scopeName : String
  spans : List Span
deriving DecidableEq, Repr

/-- A resource grouping: opaque resource content and its scope groupings. -/
structure ResourceSpans where
  resource : Nat
  scopeSpans : List ScopeSpans
deriving DecidableEq, Repr

/-- A batch (`ptrace.Traces`): ordered resource groupings. -/
abbrev Traces := List ResourceSpans

/-- Type `FullSpan` from the source: a span together with its owning resource and
scope (the evaluator only reads the scope's name). -/
structure FullSpan where
  resource : Nat
  scopeName : String
  span : Span
deriving DecidableEq, Repr

/-- Constant `numHashBuckets = 0x4000` from the source. -/
def numHashBuckets : Nat := 0x4000

/-- Constant `bitMaskHashBuckets = numHashBuckets - 1` from the source. -/
def bitMaskHashBuckets : Nat := numHashBuckets - 1

/-- Constant `percentageScaleFactor = numHashBuckets / 100.0` from the source;
the floating point constant is modelled as the exact rational. -/
def percentageScaleFactor : ℚ := (numHashBuckets : ℚ) / 100

/-- Modelled from the spec: the `Config` type is declared outside the given
source files; per the spec it carries `SamplingPercentage` (a float in
[0,100], modelled as an exact rational), `HashSeed` (unsigned 32-bit) and
`ScopeLeaves` (scope-name strings). -/
structure Config where
  samplingPercentage : ℚ
  hashSeed : Nat
  scopeLeaves : List String

/-- The processor state built by `newInTraceSamplerSpansProcessor`:
the config plus the precomputed `scaledSamplingRate`. -/
structure InTraceSamplerProcessor where
  config : Config
  scaledSamplingRate : Nat

/-- Constructor `newInTraceSamplerSpansProcessor`: stores the config and computes
`scaledSamplingRate = uint32(cfg.SamplingPercentage * percentageScaleFactor)`.
The float product and uint32 truncation are modelled as the exact rational
floor (truncation toward zero of a non-negative value). -/
def newInTraceSamplerSpansProcessor (cfg : Config) : InTraceSamplerProcessor :=
  { config := cfg
    scaledSamplingRate := (⌊cfg.samplingPercentage * percentageScaleFactor⌋).toNat }

/-- The flattened batch in iteration order, each span paired with its owning
resource and scope exactly as the nested loops of `spansToTraceTree` visit
them. -/
def fullSpansOf (td : Traces) : List FullSpan :=
  td.flatMap fun rs => rs.scopeSpans.flatMap fun ss =>
    ss.spans.map fun sp => ⟨rs.resource, ss.scopeName, sp⟩

/-- Lookup in the `fullSpans` Go map: the map is written in iteration order
with last write winning, so lookup returns the last matching insertion. -/
def lookupSpan : List FullSpan → Nat → Option FullSpan
  | [], _ => none
  | fs :: rest, k =>
    match lookupSpan rest k with
    | some v => some v
    | none => if fs.span.spanID = k then some fs else none

/-- The `children` Go map: `children[p]` collects, in batch order, the span
identities whose parent identity is `p` (each span is appended to its
parent's entry as it is visited). -/
def childrenOf : List FullSpan → Nat → List Nat
  | [], _ => []
  | fs :: rest, p =>
    (if fs.span.parentSpanID = p then [fs.span.spanID] else []) ++ childrenOf rest p

/-- The entries of the `fullSpans` Go map: one entry per distinct span
identity, holding the last written value (iteration order refined to
insertion order of the surviving writes). -/
def lastWrites : List FullSpan → List FullSpan
  | [] => []
  | fs :: rest =>
    (if rest.any fun g => g.span.spanID == fs.span.spanID then [] else [fs]) ++ lastWrites rest

/-- Type `TraceTreeData` from the source. -/
structure TraceTreeData where
  fullSpans : Nat → Option FullSpan
  children : Nat → List Nat
  roots : List Nat

/-- Function `spansToTraceTree`: builds the span map, the children map, and the roots
(entries of the span map whose parent identity has no entry in the map). -/
def spansToTraceTree (td : Traces) : TraceTreeData :=
  let l := fullSpansOf td
  { fullSpans := lookupSpan l
    children := childrenOf l
    roots := ((lastWrites l).filter fun fs =>
        (lookupSpan l fs.span.parentSpanID).isNone).map fun fs => fs.span.spanID }

/-- The scan loop of `getSingleTraceId`: `traceId` starts out absent, is set
from the first span, and a mismatch returns `nil` immediately. -/
def getSingleTraceIdLoop : Option Nat → List Span → Option Nat
  | acc, [] => acc
  | none, sp :: rest => getSingleTraceIdLoop (some sp.traceID) rest
  | some t, sp :: rest =>
    if sp.traceID = t then getSingleTraceIdLoop (some t) rest else none

/-- Function `getSingleTraceId`: the single shared trace identity of the batch, or
`none` for an empty or heterogeneous batch. -/
def getSingleTraceId (td : Traces) : Option Nat :=
  getSingleTraceIdLoop none ((fullSpansOf td).map fun fs => fs.span)

/-- The Go zero value read out of the `fullSpans` map on a missing key. -/
def defaultFullSpan : FullSpan := ⟨0, "", ⟨0, 0, 0, 0⟩⟩

/-- Writing `unsampledScopes[id] = true`: the map is a set; keep the keys as
a duplicate-free list. -/
def insertId (acc : List Nat) (x : Nat) : List Nat :=
  if acc.contains x then acc else acc ++ [x]

/-- The child loop of `getScopeBranchesToUnsampleRec`, abstracted over the
recursive call `go`: every child is recursed into (no short-circuit), the
Booleans are conjoined and the accumulator threaded in order. -/
def getScopeBranchesToUnsampleKids
    (go : Nat → List Nat → Option (Bool × List Nat)) :
    List Nat → List Nat → Option (Bool × List Nat)
  | [], acc => some (true, acc)
  | c :: cs, acc =>
    match go c acc with
    | none => none
    | some (childUnsampled, acc1) =>
      match getScopeBranchesToUnsampleKids go cs acc1 with
      | none => none
      | some (restUnsampled, acc2) => some (childUnsampled && restUnsampled, acc2)

/-- Function `getScopeBranchesToUnsampleRec`: the current span is unsampled iff its
scope name is in `ScopeLeaves` and every child is unsampled; an unsampled
span's identity is recorded.  The Go recursion has no cycle guard, so it is
indexed by fuel (`none` = the recursion depth exceeded the fuel). -/
def getScopeBranchesToUnsampleRec (its : InTraceSamplerProcessor)
    (tree : TraceTreeData) :
    Nat → Nat → List Nat → Option (Bool × List Nat)
  | 0, _, _ => none
  | fuel + 1, currentSpanID, acc =>
    let currentFullSpan := (tree.fullSpans currentSpanID).getD defaultFullSpan
    let startUnsampled := its.config.scopeLeaves.contains currentFullSpan.scopeName
    match getScopeBranchesToUnsampleKids
        (getScopeBranchesToUnsampleRec its tree fuel)
        (tree.children currentSpanID) acc with
    | none => none
    | some (kidsUnsampled, acc1) =>
      let currentUnsampled := startUnsampled && kidsUnsampled
      some (currentUnsampled,
        if currentUnsampled then insertId acc1 currentFullSpan.span.spanID else acc1)

/-- The root loop of `getScopeBranchesToUnsample`: the recursion is run from
every root, the shared `unsampledScopes` map threaded through. -/
def getScopeBranchesToUnsampleRoots (its : InTraceSamplerProcessor)
    (tree : TraceTreeData) (fuel : Nat) :
    List Nat → List Nat → Option (List Nat)
  | [], acc => some acc
  | r :: rest, acc =>
    match getScopeBranchesToUnsampleRec its tree fuel r acc with
    | none => none
    | some (_, acc1) => getScopeBranchesToUnsampleRoots its tree fuel rest acc1

/-- Function `getScopeBranchesToUnsample`: the set of span identities to remove,
collected from all roots. -/
def getScopeBranchesToUnsample (its : InTraceSamplerProcessor)
    (tree : TraceTreeData) (fuel : Nat) : Option (List Nat) :=
  getScopeBranchesToUnsampleRoots its tree fuel tree.roots []

/-- The innermost level of the `removeSpansByIds` cascade: remove every span
whose identity is in the set from one scope grouping. -/
def removeSpansSS (idsToRemove : Nat → Bool) (ss : ScopeSpans) : ScopeSpans :=
  { ss with spans := ss.spans.filter (fun sp => !(idsToRemove sp.spanID)) }

/-- The middle level of the cascade: filter each scope grouping's spans and
drop the scope groupings left empty. -/
def removeSpansRS (idsToRemove : Nat → Bool) (rs : ResourceSpans) : ResourceSpans :=
  { rs with scopeSpans :=
      (List.filter (fun ss => !(ss.spans.isEmpty))
        (rs.scopeSpans.map (removeSpansSS idsToRemove))) }

/-- The outer level: filter every resource grouping and drop the resource
groupings left empty. -/
def removeSpansByIds (idsToRemove : Nat → Bool) (td : Traces) : Traces :=
  (td.map (removeSpansRS idsToRemove)).filter (fun rs => !(rs.scopeSpans.isEmpty))

/-- The pruning path of `processTraces` (lines 214-222 of the source): build
the tree, collect the branches to unsample, and remove them unless the set
is empty. -/
def processTracesPrune (its : InTraceSamplerProcessor) (fuel : Nat)
    (td : Traces) : Option Traces :=
  match getScopeBranchesToUnsample its (spansToTraceTree td) fuel with
  | none => none
  | some unsampledSpanIds =>
    if unsampledSpanIds.isEmpty then some td
    else some (removeSpansByIds (fun sid => unsampledSpanIds.contains sid) td)

/-- Function `processTraces`: heterogeneous or empty batches pass through; a trace
accepted by the hash decision passes through; otherwise the tree is built,
the prunable branches collected, and (when non-empty) removed.  The hash
function itself lives outside the given source files and is passed in as a
parameter (modelled from the spec: any deterministic seeded hash). -/
def processTraces (hash : Nat → Nat → Nat) (its : InTraceSamplerProcessor)
    (fuel : Nat) (td : Traces) : Option Traces :=
  match getSingleTraceId td with
  | none => some td
  | some singleTraceId =>
    if hash singleTraceId its.config.hashSeed &&& bitMaskHashBuckets
        < its.scaledSamplingRate then
      some td
    else
      processTracesPrune its fuel td

/-! ## Derived notions used by the specification -/

/-- The span identities written to the `fullSpans` map, in insertion order. -/
def idsOf (l : List FullSpan) : List Nat := l.map fun fs => fs.span.spanID

/-- Span identities are unique per batch (duplicates are undefined
behavior per the spec). -/
abbrev UniqueSpanIds (td : Traces) : Prop := (idsOf (fullSpansOf td)).Nodup

/-- One step of the parent walk: exits (`true`) as soon as the current
identity has no entry in the span map; `false` when the step budget `n` runs
out while still inside the batch. -/
def chainExits (l : List FullSpan) : Nat → Nat → Bool
  | 0, _ => false
  | n + 1, x =>
    match lookupSpan l x with
    | none => true
    | some fs => chainExits l n fs.span.parentSpanID

/-- Acyclic parent references: every span's chain of parent identities
eventually leaves the batch (for a finite batch this is exactly the absence
of cycles among the parent pointers). -/
def AcyclicParents (td : Traces) : Prop :=
  ∀ fs ∈ fullSpansOf td, ∃ n, chainExits (fullSpansOf td) n fs.span.spanID = true

/-- Relation `Reach tree x d`: `d` lies in the subtree of `x`, i.e. it is reachable
from `x` through the `children` mapping (reflexively). -/
inductive Reach (tree : TraceTreeData) : Nat → Nat → Prop
  | refl (x : Nat) : Reach tree x x
  | step {x c d : Nat} : c ∈ tree.children x → Reach tree c d → Reach tree x d

/-- The scope name the evaluator reads for identity `x` is configured as a
leaf scope. -/
def scopeIsLeaf (its : InTraceSamplerProcessor) (tree : TraceTreeData)
    (x : Nat) : Bool :=
  its.config.scopeLeaves.contains ((tree.fullSpans x).getD defaultFullSpan).scopeName

/-- Every span in the subtree of `x` (including `x` itself) carries a
configured leaf scope: the specification's `isPrunable` predicate. -/
def SubtreeAllLeaves (its : InTraceSamplerProcessor) (tree : TraceTreeData)
    (x : Nat) : Prop :=
  ∀ d, Reach tree x d → scopeIsLeaf its tree d = true

/-- The span identity stored under key `x` (the Go map read the evaluator
performs). -/
def spanIdAt (tree : TraceTreeData) (x : Nat) : Nat :=
  ((tree.fullSpans x).getD defaultFullSpan).span.spanID

/-- One step of the parent walk as a total function (identity outside the
batch). -/
def pstep (l : List FullSpan) (x : Nat) : Nat :=
  match lookupSpan l x with
  | none => x
  | some fs => fs.span.parentSpanID

/-- The spans of the batch, in iteration order (what `getSingleTraceId`
scans). -/
def allSpansOf (td : Traces) : List Span := (fullSpansOf td).map fun fs => fs.span

/-- The flattened spans of a single resource grouping. -/
def rsFullSpans (rs : ResourceSpans) : List FullSpan :=
  rs.scopeSpans.flatMap fun ss => ss.spans.map fun sp => ⟨rs.resource, ss.scopeName, sp⟩

/-! ## Concrete batches and configurations used in the example runs -/

/-- A hash collaborator that maps everything to bucket 0. -/
def hashZero : Nat → Nat → Nat := fun _ _ => 0

/-- A processor with `ScopeLeaves = ["drop"]` and scaled rate 0
(the `SamplingPercentage = 0` configuration). -/
def itsDropZero : InTraceSamplerProcessor := ⟨⟨0, 0, ["drop"]⟩, 0⟩

/-- A processor with `ScopeLeaves = ["A"]` and scaled rate 0. -/
def itsLeafA : InTraceSamplerProcessor := ⟨⟨0, 0, ["A"]⟩, 0⟩

/-- The chain root(scope A) → child(scope A) → grandchild(scope B). -/
def tdChainKeep : Traces :=
  [⟨0, [⟨"A", [⟨1, 0, 7, 0⟩, ⟨2, 1, 7, 0⟩]⟩, ⟨"B", [⟨3, 2, 7, 0⟩]⟩]⟩]

/-- The chain root(scope A) → child(scope A) → grandchild(scope A). -/
def tdChainDrop : Traces :=
  [⟨0, [⟨"A", [⟨1, 0, 7, 0⟩, ⟨2, 1, 7, 0⟩, ⟨3, 2, 7, 0⟩]⟩]⟩]

/-- The end-to-end batch of the spec: rootA(keep) → childB(drop) → leafC(drop). -/
def tdE2E : Traces :=
  [⟨0, [⟨"keep", [⟨1, 0, 7, 0⟩]⟩, ⟨"drop", [⟨2, 1, 7, 0⟩, ⟨3, 2, 7, 0⟩]⟩]⟩]

/-- A batch whose single span is its own parent (a self-referential chain). -/
def td7loop : Traces := [⟨0, [⟨"drop", [⟨1, 1, 7, 0⟩]⟩]⟩]

/-- A batch with an empty scope grouping next to an all-prunable one. -/
def td9ex : Traces := [⟨0, [⟨"x", []⟩, ⟨"drop", [⟨1, 0, 7, 0⟩]⟩]⟩]

/-- A batch with two spans sharing span identity 1, one under a non-leaf
scope. -/
def td10ex : Traces :=
  [⟨0, [⟨"keep", [⟨1, 0, 7, 0⟩]⟩, ⟨"drop", [⟨1, 0, 7, 1⟩]⟩]⟩]

/-- A heterogeneous batch: spans of two distinct traces. -/
def tdHet : Traces := [⟨0, [⟨"s", [⟨1, 0, 7, 0⟩, ⟨2, 0, 8, 0⟩]⟩]⟩]

/-- A single-span single-trace batch. -/
def tdOne : Traces := [⟨0, [⟨"s", [⟨1, 0, 7, 0⟩]⟩]⟩]

/-- A configuration with sampling percentage 0. -/
def cfg0 : Config := ⟨0, 0, []⟩

/-- A configuration with sampling percentage 100. -/
def cfg100 : Config := ⟨100, 22, []⟩

/-- A resource grouping all of whose spans carry identity 4. -/
def rsAll4 : ResourceSpans := ⟨5, [⟨"a", [⟨4, 0, 9, 0⟩]⟩]⟩

/-! ## Lookup, children and roots characterizations -/

theorem fullSpansOf_eq_flatMap {td : Traces} :
    fullSpansOf td = td.flatMap rsFullSpans := rfl

theorem lookupSpan_mem {l : List FullSpan} {k : Nat} {fs : FullSpan}
    (h : lookupSpan l k = some fs) : fs ∈ l ∧ fs.span.spanID = k := by
  induction l with
  | nil => simp [lookupSpan] at h
  | cons g rest ih =>
    rw [lookupSpan] at h
    rcases hr : lookupSpan rest k with _ | v
    · rw [hr] at h
      by_cases hg : g.span.spanID = k
      · simp [hg] at h
        exact ⟨by simp [← h], by simp [← h, hg]⟩
      · simp [hg] at h
    · rw [hr] at h
      simp at h
      rcases ih (hr.trans (by rw [h])) with ⟨h1, h2⟩
      exact ⟨List.mem_cons_of_mem _ h1, h2⟩

theorem lookupSpan_eq_none {l : List FullSpan} {k : Nat} :
    lookupSpan l k = none ↔ ∀ fs ∈ l, fs.span.spanID ≠ k := by
  induction l with
  | nil => simp [lookupSpan]
  | cons g rest ih =>
    rw [lookupSpan]
    rcases hr : lookupSpan rest k with _ | v
    · by_cases hg : g.span.spanID = k
      · simp [hg]
      · simpa [hg] using ih.mp hr
    · have := lookupSpan_mem hr
      simp only [List.mem_cons]
      constructor
      · intro h; exact absurd h (by simp)
      · intro h
        exact absurd (h v (Or.inr this.1)) (by simp [this.2])

theorem lookupSpan_isSome {l : List FullSpan} {k : Nat}
    (h : ∃ fs ∈ l, fs.span.spanID = k) : (lookupSpan l k).isSome := by
  rcases hr : lookupSpan l k with _ | v
  · rcases h with ⟨fs, hm, hid⟩
    exact absurd hid (lookupSpan_eq_none.mp hr fs hm)
  · rfl

theorem lookupSpan_eq_some_of_nodup {l : List FullSpan} {k : Nat} {fs : FullSpan}
    (hnd : (idsOf l).Nodup) (hm : fs ∈ l) (hid : fs.span.spanID = k) :
    lookupSpan l k = some fs := by
  rcases hr : lookupSpan l k with _ | v
  · exact absurd hid (lookupSpan_eq_none.mp hr fs hm)
  · rcases lookupSpan_mem hr with ⟨hv, hvk⟩
    have : fs = v := by
      have h1 : (idsOf l).Nodup := hnd
      have : ∀ a ∈ l, ∀ b ∈ l, a.span.spanID = b.span.spanID → a = b := by
        intro a ha b hb hab
        have := List.inj_on_of_nodup_map (f := fun fs : FullSpan => fs.span.spanID)
          (by simpa [idsOf] using h1)
        exact this ha hb hab
      exact this fs hm v hv (by rw [hid, hvk])
    rw [this]

theorem mem_childrenOf {l : List FullSpan} {p c : Nat} :
    c ∈ childrenOf l p ↔ ∃ fs ∈ l, fs.span.spanID = c ∧ fs.span.parentSpanID = p := by
  induction l with
  | nil => simp [childrenOf]
  | cons g rest ih =>
    rw [childrenOf]
    by_cases hg : g.span.parentSpanID = p
    · rw [if_pos hg, List.singleton_append]
      rw [List.mem_cons, ih]
      constructor
      · rintro (rfl | ⟨fs, hm, h1, h2⟩)
        · exact ⟨g, List.mem_cons_self g rest, rfl, hg⟩
        · exact ⟨fs, List.mem_cons_of_mem _ hm, h1, h2⟩
      · rintro ⟨fs, hm, h1, h2⟩
        rcases List.mem_cons.mp hm with rfl | hm'
        · exact Or.inl h1.symm
        · exact Or.inr ⟨fs, hm', h1, h2⟩
    · rw [if_neg hg, List.nil_append, ih]
      constructor
      · rintro ⟨fs, hm, h1, h2⟩
        exact ⟨fs, List.mem_cons_of_mem _ hm, h1, h2⟩
      · rintro ⟨fs, hm, h1, h2⟩
        rcases List.mem_cons.mp hm with rfl | hm'
        · exact absurd h2 hg
        · exact ⟨fs, hm', h1, h2⟩

theorem idsOf_cons {g : FullSpan} {rest : List FullSpan} :
    idsOf (g :: rest) = g.span.spanID :: idsOf rest := rfl

theorem lastWrites_eq_self {l : List FullSpan} (hnd : (idsOf l).Nodup) :
    lastWrites l = l := by
  induction l with
  | nil => rfl
  | cons g rest ih =>
    rw [idsOf_cons] at hnd
    have h1 := List.nodup_cons.mp hnd
    have hgf : (rest.any fun h => h.span.spanID == g.span.spanID) = false := by
      simp only [List.any_eq_false, beq_iff_eq]
      intro fs hm heq
      exact h1.1 (List.mem_map.mpr ⟨fs, hm, heq⟩)
    rw [lastWrites, hgf]
    simp [ih h1.2]

theorem mem_insertId {acc : List Nat} {x y : Nat} :
    y ∈ insertId acc x ↔ y ∈ acc ∨ y = x := by
  unfold insertId
  by_cases h : x ∈ acc
  · rw [if_pos (by simpa using h)]
    constructor
    · exact Or.inl
    · rintro (hy | rfl) <;> assumption
  · rw [if_neg (by simpa using h)]
    simp

/-! ## Reach and the subtree predicate -/

theorem reach_cases {tree : TraceTreeData} {x d : Nat} (h : Reach tree x d) :
    d = x ∨ ∃ c ∈ tree.children x, Reach tree c d := by
  cases h with
  | refl => exact Or.inl rfl
  | step hc hr => exact Or.inr ⟨_, hc, hr⟩

theorem reach_snoc {tree : TraceTreeData} {a b c : Nat} (h : Reach tree a b)
    (hc : c ∈ tree.children b) : Reach tree a c := by
  induction h with
  | refl => exact Reach.step hc (Reach.refl c)
  | step hc' _ ih => exact Reach.step hc' (ih hc)

theorem subtreeAllLeaves_iff {its : InTraceSamplerProcessor}
    {tree : TraceTreeData} {x : Nat} :
    SubtreeAllLeaves its tree x ↔
      scopeIsLeaf its tree x = true ∧
        ∀ c ∈ tree.children x, SubtreeAllLeaves its tree c := by
  constructor
  · intro h
    exact ⟨h x (Reach.refl x), fun c hc d hd => h d (Reach.step hc hd)⟩
  · rintro ⟨h1, h2⟩ d hd
    rcases reach_cases hd with rfl | ⟨c, hc, hr⟩
    · exact h1
    · exact h2 c hc d hr

/-! ## What the recursive evaluator computes -/

theorem unsampleKids_spec (its : InTraceSamplerProcessor) (tree : TraceTreeData)
    (go : Nat → List Nat → Option (Bool × List Nat))
    (hgo : ∀ sid acc b acc',
      (∀ x, Reach tree sid x → spanIdAt tree x = x) →
      go sid acc = some (b, acc') →
      ((b = true ↔ SubtreeAllLeaves its tree sid) ∧
        ∀ y, y ∈ acc' ↔ y ∈ acc ∨ (Reach tree sid y ∧ SubtreeAllLeaves its tree y))) :
    ∀ l acc b acc',
      (∀ c ∈ l, ∀ x, Reach tree c x → spanIdAt tree x = x) →
      getScopeBranchesToUnsampleKids go l acc = some (b, acc') →
      ((b = true ↔ ∀ c ∈ l, SubtreeAllLeaves its tree c) ∧
        ∀ y, y ∈ acc' ↔ y ∈ acc ∨
          ∃ c ∈ l, Reach tree c y ∧ SubtreeAllLeaves its tree y) := by
  intro l
  induction l with
  | nil =>
    intro acc b acc' _ h
    rw [getScopeBranchesToUnsampleKids] at h
    injection h with h
    injection h with h1 h2
    subst h1; subst h2
    simp
  | cons c cs ih =>
    intro acc b acc' hwf h
    rw [getScopeBranchesToUnsampleKids] at h
    split at h
    · exact absurd h (by simp)
    · rename_i b1 a1 h1
      split at h
      · exact absurd h (by simp)
      · rename_i b2 a2 h2
        injection h with h
        injection h with hb hacc
        subst hb; subst hacc
        have hc := hgo c acc b1 a1 (hwf c (List.mem_cons_self c cs)) h1
        have hcs := ih a1 b2 a2 (fun d hd => hwf d (List.mem_cons_of_mem _ hd)) h2
        constructor
        · rw [Bool.and_eq_true, hc.1, hcs.1]
          constructor
          · rintro ⟨hx, hall⟩ d hd
            rcases List.mem_cons.mp hd with rfl | hd'
            · exact hx
            · exact hall d hd'
          · intro hall
            exact ⟨hall c (List.mem_cons_self c cs),
              fun d hd => hall d (List.mem_cons_of_mem _ hd)⟩
        · intro y
          rw [hcs.2 y, hc.2 y]
          constructor
          · rintro ((hy | ⟨hr, hs⟩) | ⟨d, hd, hr, hs⟩)
            · exact Or.inl hy
            · exact Or.inr ⟨c, List.mem_cons_self c cs, hr, hs⟩
            · exact Or.inr ⟨d, List.mem_cons_of_mem _ hd, hr, hs⟩
          · rintro (hy | ⟨d, hd, hr, hs⟩)
            · exact Or.inl (Or.inl hy)
            · rcases List.mem_cons.mp hd with rfl | hd'
              · exact Or.inl (Or.inr ⟨hr, hs⟩)
              · exact Or.inr ⟨d, hd', hr, hs⟩

theorem unsampleRec_spec (its : InTraceSamplerProcessor) (tree : TraceTreeData) :
    ∀ fuel sid acc b acc',
      (∀ x, Reach tree sid x → spanIdAt tree x = x) →
      getScopeBranchesToUnsampleRec its tree fuel sid acc = some (b, acc') →
      ((b = true ↔ SubtreeAllLeaves its tree sid) ∧
        ∀ y, y ∈ acc' ↔ y ∈ acc ∨ (Reach tree sid y ∧ SubtreeAllLeaves its tree y)) := by
  intro fuel
  induction fuel with
  | zero =>
    intro sid acc b acc' _ h
    exact absurd h (by rw [getScopeBranchesToUnsampleRec]; simp)
  | succ f ih =>
    intro sid acc b acc' hwf h
    rw [getScopeBranchesToUnsampleRec] at h
    rcases hk : getScopeBranchesToUnsampleKids
        (getScopeBranchesToUnsampleRec its tree f) (tree.children sid) acc
      with _ | ⟨kb, acc1⟩
    · rw [hk] at h; exact absurd h (by simp)
    · rw [hk] at h
      injection h with h
      injection h with hb hacc
      have hkids := unsampleKids_spec its tree _ ih (tree.children sid) acc kb acc1
        (fun c hc x hr => hwf x (Reach.step hc hr)) hk
      have hbiff : ((its.config.scopeLeaves.contains
            ((tree.fullSpans sid).getD defaultFullSpan).scopeName && kb) = true
          ↔ SubtreeAllLeaves its tree sid) := by
        rw [Bool.and_eq_true, hkids.1, subtreeAllLeaves_iff]
        exact Iff.rfl
      subst hb
      constructor
      · exact hbiff
      · intro y
        by_cases hcur : (its.config.scopeLeaves.contains
            ((tree.fullSpans sid).getD defaultFullSpan).scopeName && kb) = true
        · have hsid : ((tree.fullSpans sid).getD defaultFullSpan).span.spanID = sid :=
            hwf sid (Reach.refl sid)
          have hacc2 : acc' = insertId acc1 sid := by
            rw [← hacc, hcur, hsid]; simp
          rw [hacc2, mem_insertId, hkids.2 y]
          constructor
          · rintro ((hy | ⟨c, hc, hr, hs⟩) | rfl)
            · exact Or.inl hy
            · exact Or.inr ⟨Reach.step hc hr, hs⟩
            · exact Or.inr ⟨Reach.refl y, hbiff.mp hcur⟩
          · rintro (hy | ⟨hr, hs⟩)
            · exact Or.inl (Or.inl hy)
            · rcases reach_cases hr with rfl | ⟨c, hc, hr'⟩
              · exact Or.inr rfl
              · exact Or.inl (Or.inr ⟨c, hc, hr', hs⟩)
        · rw [Bool.not_eq_true] at hcur
          have hacc2 : acc' = acc1 := by
            rw [← hacc, hcur]; simp
          rw [hacc2, hkids.2 y]
          have hnosub : ¬ SubtreeAllLeaves its tree sid := by
            intro hs
            have := hbiff.mpr hs
            rw [hcur] at this
            exact absurd this (by simp)
          constructor
          · rintro (hy | ⟨c, hc, hr, hs⟩)
            · exact Or.inl hy
            · exact Or.inr ⟨Reach.step hc hr, hs⟩
          · rintro (hy | ⟨hr, hs⟩)
            · exact Or.inl hy
            · rcases reach_cases hr with rfl | ⟨c, hc, hr'⟩
              · exact absurd hs hnosub
              · exact Or.inr ⟨c, hc, hr', hs⟩

theorem unsampleRoots_spec (its : InTraceSamplerProcessor) (tree : TraceTreeData)
    (fuel : Nat) :
    ∀ rl acc ids,
      (∀ r ∈ rl, ∀ x, Reach tree r x → spanIdAt tree x = x) →
      getScopeBranchesToUnsampleRoots its tree fuel rl acc = some ids →
      ∀ y, y ∈ ids ↔ y ∈ acc ∨
        ∃ r ∈ rl, Reach tree r y ∧ SubtreeAllLeaves its tree y := by
  intro rl
  induction rl with
  | nil =>
    intro acc ids _ h y
    rw [getScopeBranchesToUnsampleRoots] at h
    injection h with h
    subst h
    simp
  | cons r rest ih =>
    intro acc ids hwf h y
    rw [getScopeBranchesToUnsampleRoots] at h
    rcases h1 : getScopeBranchesToUnsampleRec its tree fuel r acc with _ | ⟨b1, a1⟩
    · rw [h1] at h; exact absurd h (by simp)
    · rw [h1] at h
      have hr := unsampleRec_spec its tree fuel r acc b1 a1
        (hwf r (List.mem_cons_self r rest)) h1
      have hrest := ih a1 ids (fun d hd => hwf d (List.mem_cons_of_mem _ hd)) h
      rw [hrest y, hr.2 y]
      constructor
      · rintro ((hy | ⟨hre, hs⟩) | ⟨d, hd, hre, hs⟩)
        · exact Or.inl hy
        · exact Or.inr ⟨r, List.mem_cons_self r rest, hre, hs⟩
        · exact Or.inr ⟨d, List.mem_cons_of_mem _ hd, hre, hs⟩
      · rintro (hy | ⟨d, hd, hre, hs⟩)
        · exact Or.inl (Or.inl hy)
        · rcases List.mem_cons.mp hd with rfl | hd'
          · exact Or.inl (Or.inr ⟨hre, hs⟩)
          · exact Or.inr ⟨d, hd', hre, hs⟩

theorem unsample_spec {its : InTraceSamplerProcessor} {tree : TraceTreeData}
    {fuel : Nat} {ids : List Nat}
    (hwf : ∀ r ∈ tree.roots, ∀ x, Reach tree r x → spanIdAt tree x = x)
    (h : getScopeBranchesToUnsample its tree fuel = some ids) :
    ∀ y, y ∈ ids ↔
      ∃ r ∈ tree.roots, Reach tree r y ∧ SubtreeAllLeaves its tree y := by
  intro y
  have := unsampleRoots_spec its tree fuel tree.roots [] ids hwf h y
  simpa using this

/-! ## The tree built from a batch: roots, membership, well-formedness -/

theorem spansToTraceTree_fullSpans {td : Traces} :
    (spansToTraceTree td).fullSpans = lookupSpan (fullSpansOf td) := rfl

theorem spansToTraceTree_children {td : Traces} :
    (spansToTraceTree td).children = childrenOf (fullSpansOf td) := rfl

theorem spansToTraceTree_roots {td : Traces} :
    (spansToTraceTree td).roots =
      ((lastWrites (fullSpansOf td)).filter fun fs =>
        (lookupSpan (fullSpansOf td) fs.span.parentSpanID).isNone).map
        fun fs => fs.span.spanID := rfl

theorem mem_roots_iff {td : Traces} (hnd : UniqueSpanIds td) {x : Nat} :
    x ∈ (spansToTraceTree td).roots ↔
      ∃ fs, lookupSpan (fullSpansOf td) x = some fs ∧
        lookupSpan (fullSpansOf td) fs.span.parentSpanID = none := by
  rw [spansToTraceTree_roots, lastWrites_eq_self hnd]
  rw [List.mem_map]
  constructor
  · rintro ⟨fs, hm, rfl⟩
    rcases List.mem_filter.mp hm with ⟨hmem, hfilt⟩
    refine ⟨fs, lookupSpan_eq_some_of_nodup hnd hmem rfl, ?_⟩
    simpa [Option.isNone_iff_eq_none] using hfilt
  · rintro ⟨fs, h1, h2⟩
    rcases lookupSpan_mem h1 with ⟨hmem, hid⟩
    exact ⟨fs, List.mem_filter.mpr ⟨hmem, by simp [h2]⟩, hid⟩

theorem mem_idsOf {l : List FullSpan} {x : Nat} :
    x ∈ idsOf l ↔ ∃ fs ∈ l, fs.span.spanID = x := by
  simp [idsOf]

theorem lastWrites_subset {l : List FullSpan} {fs : FullSpan}
    (h : fs ∈ lastWrites l) : fs ∈ l := by
  induction l with
  | nil => simp [lastWrites] at h
  | cons g rest ih =>
    rw [lastWrites] at h
    rcases List.mem_append.mp h with h1 | h2
    · rcases hb : (rest.any fun k => k.span.spanID == g.span.spanID) with _ | _
      · rw [hb] at h1
        simp at h1
        simp [h1]
      · rw [hb] at h1
        simp at h1
    · exact List.mem_cons_of_mem _ (ih h2)

theorem roots_subset_ids {td : Traces} {x : Nat}
    (h : x ∈ (spansToTraceTree td).roots) : x ∈ idsOf (fullSpansOf td) := by
  rw [spansToTraceTree_roots] at h
  rcases List.mem_map.mp h with ⟨fs, hm, rfl⟩
  rcases List.mem_filter.mp hm with ⟨hmem, _⟩
  exact mem_idsOf.mpr ⟨fs, lastWrites_subset hmem, rfl⟩

theorem reach_mem_ids {td : Traces} {r x : Nat}
    (hr : r ∈ idsOf (fullSpansOf td))
    (h : Reach (spansToTraceTree td) r x) : x ∈ idsOf (fullSpansOf td) := by
  induction h with
  | refl => exact hr
  | step hc _ ih =>
    apply ih
    rw [spansToTraceTree_children] at hc
    rcases mem_childrenOf.mp hc with ⟨fs, hm, hid, _⟩
    exact mem_idsOf.mpr ⟨fs, hm, hid⟩

theorem spanIdAt_of_mem {td : Traces} {x : Nat}
    (hx : x ∈ idsOf (fullSpansOf td)) : spanIdAt (spansToTraceTree td) x = x := by
  unfold spanIdAt
  rw [spansToTraceTree_fullSpans]
  rcases hl : lookupSpan (fullSpansOf td) x with _ | fs
  · exact absurd hl (by
      rcases mem_idsOf.mp hx with ⟨fs, hm, hid⟩
      intro hn
      exact lookupSpan_eq_none.mp hn fs hm hid)
  · simpa using (lookupSpan_mem hl).2

theorem hwf_tree {td : Traces} :
    ∀ r ∈ (spansToTraceTree td).roots, ∀ x,
      Reach (spansToTraceTree td) r x → spanIdAt (spansToTraceTree td) x = x := by
  intro r hr x hreach
  exact spanIdAt_of_mem (reach_mem_ids (roots_subset_ids hr) hreach)

/-! ## Every span with an exiting parent chain is reachable from a root -/

theorem chainExits_lookup_some {l : List FullSpan} {x k : Nat} {fs : FullSpan}
    (h : lookupSpan l x = some fs) :
    chainExits l (k + 1) x = chainExits l k fs.span.parentSpanID := by
  rw [chainExits, h]

theorem chainExits_lookup_none {l : List FullSpan} {x k : Nat}
    (h : lookupSpan l x = none) : chainExits l (k + 1) x = true := by
  rw [chainExits, h]

theorem chainExits_child {l : List FullSpan} (hnd : (idsOf l).Nodup)
    {x c : Nat} (hc : c ∈ childrenOf l x) (k : Nat) :
    chainExits l (k + 1) c = chainExits l k x := by
  rcases mem_childrenOf.mp hc with ⟨fs, hm, hid, hpar⟩
  rw [chainExits_lookup_some (lookupSpan_eq_some_of_nodup hnd hm hid), hpar]

theorem reach_root_of_chainExits {td : Traces} (hnd : UniqueSpanIds td) :
    ∀ n x, x ∈ idsOf (fullSpansOf td) →
      chainExits (fullSpansOf td) n x = true →
      ∃ r ∈ (spansToTraceTree td).roots, Reach (spansToTraceTree td) r x := by
  intro n
  induction n with
  | zero => intro x _ h; simp [chainExits] at h
  | succ k ih =>
    intro x hx hch
    obtain ⟨fs, hm, hid⟩ := mem_idsOf.mp hx
    have hlx : lookupSpan (fullSpansOf td) x = some fs :=
      lookupSpan_eq_some_of_nodup hnd hm hid
    rcases hp : lookupSpan (fullSpansOf td) fs.span.parentSpanID with _ | gs
    · refine ⟨x, ?_, Reach.refl x⟩
      rw [mem_roots_iff hnd]
      exact ⟨fs, hlx, hp⟩
    · have hpid : fs.span.parentSpanID ∈ idsOf (fullSpansOf td) := by
        rcases lookupSpan_mem hp with ⟨hm2, hid2⟩
        exact mem_idsOf.mpr ⟨gs, hm2, hid2⟩
      have hch' : chainExits (fullSpansOf td) k fs.span.parentSpanID = true := by
        rw [chainExits, hlx] at hch
        exact hch
      obtain ⟨r, hr, hreach⟩ := ih _ hpid hch'
      refine ⟨r, hr, reach_snoc hreach ?_⟩
      rw [spansToTraceTree_children]
      exact mem_childrenOf.mpr ⟨fs, hm, hid, rfl⟩

/-! ## An exiting parent chain exits within `length + 1` steps -/

theorem chainExits_iff_iterate {l : List FullSpan} :
    ∀ {m x}, chainExits l m x = true ↔
      ∃ k < m, lookupSpan l ((pstep l)^[k] x) = none := by
  intro m
  induction m with
  | zero => intro x; simp [chainExits]
  | succ n ih =>
    intro x
    rcases hl : lookupSpan l x with _ | fs
    · rw [chainExits_lookup_none hl]
      constructor
      · intro _
        exact ⟨0, Nat.succ_pos n, by simpa using hl⟩
      · intro _; rfl
    · rw [chainExits_lookup_some hl, ih]
      have hpx : pstep l x = fs.span.parentSpanID := by simp [pstep, hl]
      constructor
      · rintro ⟨k, hk, hnone⟩
        refine ⟨k + 1, by omega, ?_⟩
        rw [Function.iterate_succ_apply, hpx]
        exact hnone
      · rintro ⟨k, hk, hnone⟩
        match k with
        | 0 =>
          rw [Function.iterate_zero_apply] at hnone
          rw [hnone] at hl
          exact absurd hl (by simp)
        | k + 1 =>
          refine ⟨k, by omega, ?_⟩
          rw [Function.iterate_succ_apply, hpx] at hnone
          exact hnone

theorem exit_le_length {l : List FullSpan} {m x : Nat}
    (h1 : chainExits l (m + 1) x = true) (h2 : chainExits l m x = false) :
    m ≤ l.length := by
  obtain ⟨k, hk, hnone⟩ := chainExits_iff_iterate.mp h1
  have hkm : k = m := by
    by_contra hne
    have hlt : k < m := by omega
    have := chainExits_iff_iterate.mpr ⟨k, hlt, hnone⟩
    rw [h2] at this
    exact absurd this (by simp)
  subst hkm
  have hin : ∀ i, i < k → (lookupSpan l ((pstep l)^[i] x)).isSome := by
    intro i hi
    rcases hl : lookupSpan l ((pstep l)^[i] x) with _ | fs
    · have := chainExits_iff_iterate.mpr ⟨i, hi, hl⟩
      rw [h2] at this
      exact absurd this (by simp)
    · rfl
  have hinj2 : ∀ i j, i < j → j < k → (pstep l)^[i] x ≠ (pstep l)^[j] x := by
    intro i j hij hjk heq
    have hstep : (pstep l)^[k] x = (pstep l)^[k - j + i] x := by
      have e1 : k = k - j + j := by omega
      calc (pstep l)^[k] x = (pstep l)^[k - j + j] x := by rw [← e1]
        _ = (pstep l)^[k - j] ((pstep l)^[j] x) := Function.iterate_add_apply _ _ _ _
        _ = (pstep l)^[k - j] ((pstep l)^[i] x) := by rw [heq]
        _ = (pstep l)^[k - j + i] x := (Function.iterate_add_apply _ _ _ _).symm
    have hlt : k - j + i < k := by omega
    have := hin _ hlt
    rw [← hstep, hnone] at this
    exact absurd this (by simp)
  have hnodup : ((List.range k).map fun i => (pstep l)^[i] x).Nodup := by
    refine List.Nodup.map_on ?_ (List.nodup_range k)
    intro i hi j hj heq
    rcases Nat.lt_trichotomy i j with h | h | h
    · exact absurd heq (hinj2 i j h (List.mem_range.mp hj))
    · exact h
    · exact absurd heq.symm (hinj2 j i h (List.mem_range.mp hi))
  have hsub : ∀ y ∈ (List.range k).map fun i => (pstep l)^[i] x, y ∈ idsOf l := by
    intro y hy
    rcases List.mem_map.mp hy with ⟨i, hi, rfl⟩
    have := hin i (List.mem_range.mp hi)
    rcases hl : lookupSpan l ((pstep l)^[i] x) with _ | fs
    · rw [hl] at this; exact absurd this (by simp)
    · rcases lookupSpan_mem hl with ⟨hm, hid⟩
      exact mem_idsOf.mpr ⟨fs, hm, hid⟩
  have hlen : k = ((List.range k).map fun i => (pstep l)^[i] x).length := by
    simp
  have hcard : ((List.range k).map fun i => (pstep l)^[i] x).length
      ≤ (idsOf l).length := by
    rw [← List.toFinset_card_of_nodup hnodup]
    calc ((List.range k).map fun i => (pstep l)^[i] x).toFinset.card
        ≤ (idsOf l).toFinset.card := by
          apply Finset.card_le_card
          intro y hy
          exact List.mem_toFinset.mpr (hsub y (List.mem_toFinset.mp hy))
      _ ≤ (idsOf l).length := List.toFinset_card_le _
  have : (idsOf l).length = l.length := by simp [idsOf]
  omega

/-! ## Termination of the evaluator on unique-identity batches -/

theorem unsampleKids_cons_some {go : Nat → List Nat → Option (Bool × List Nat)}
    {c : Nat} {cs acc : List Nat} {b1 : Bool} {a1 : List Nat}
    (h1 : go c acc = some (b1, a1)) :
    getScopeBranchesToUnsampleKids go (c :: cs) acc =
      match getScopeBranchesToUnsampleKids go cs a1 with
      | none => none
      | some (b2, a2) => some (b1 && b2, a2) := by
  rw [getScopeBranchesToUnsampleKids, h1]

theorem unsampleKids_some (go : Nat → List Nat → Option (Bool × List Nat)) :
    ∀ cl : List Nat, (∀ c ∈ cl, ∀ acc, ∃ r, go c acc = some r) →
      ∀ acc, ∃ r, getScopeBranchesToUnsampleKids go cl acc = some r := by
  intro cl
  induction cl with
  | nil => intro _ acc; exact ⟨(true, acc), rfl⟩
  | cons c cs ih =>
    intro hall acc
    obtain ⟨⟨b1, a1⟩, h1⟩ := hall c (List.mem_cons_self c cs) acc
    obtain ⟨⟨b2, a2⟩, h2⟩ := ih (fun d hd => hall d (List.mem_cons_of_mem _ hd)) a1
    exact ⟨(b1 && b2, a2), by rw [unsampleKids_cons_some h1, h2]⟩

theorem unsampleRec_some (its : InTraceSamplerProcessor) {td : Traces}
    (hnd : UniqueSpanIds td) :
    ∀ fuel d x acc, fuel + d = (fullSpansOf td).length + 1 →
      chainExits (fullSpansOf td) (d + 2) x = true →
      chainExits (fullSpansOf td) (d + 1) x = false →
      ∃ r, getScopeBranchesToUnsampleRec its (spansToTraceTree td) fuel x acc
        = some r := by
  intro fuel
  induction fuel with
  | zero =>
    intro d x acc hsum h1 h2
    exfalso
    have hle := exit_le_length (m := d + 1) (by simpa using h1) h2
    omega
  | succ f ih =>
    intro d x acc hsum h1 h2
    have hkids := unsampleKids_some (getScopeBranchesToUnsampleRec its
        (spansToTraceTree td) f) ((spansToTraceTree td).children x)
      (fun c hc acc' => by
        have hc' : c ∈ childrenOf (fullSpansOf td) x := by
          rw [← spansToTraceTree_children]; exact hc
        refine ih (d + 1) c acc' (by omega) ?_ ?_
        · rw [show d + 1 + 2 = (d + 2) + 1 by omega, chainExits_child hnd hc']
          exact h1
        · rw [show d + 1 + 1 = (d + 1) + 1 by omega, chainExits_child hnd hc']
          exact h2) acc
    obtain ⟨⟨kb, acc1⟩, hk⟩ := hkids
    rw [getScopeBranchesToUnsampleRec, hk]
    exact ⟨_, rfl⟩

theorem root_chain {td : Traces} (hnd : UniqueSpanIds td) {r : Nat}
    (hr : r ∈ (spansToTraceTree td).roots) :
    chainExits (fullSpansOf td) 2 r = true ∧
      chainExits (fullSpansOf td) 1 r = false := by
  obtain ⟨fs, h1, h2⟩ := (mem_roots_iff hnd).mp hr
  refine ⟨?_, ?_⟩
  · rw [show (2 : Nat) = 1 + 1 from rfl, chainExits_lookup_some h1,
      chainExits_lookup_none h2]
  · rw [chainExits_lookup_some h1]
    rfl

theorem unsampleRoots_some (its : InTraceSamplerProcessor) {td : Traces}
    (hnd : UniqueSpanIds td) :
    ∀ rl, (∀ r ∈ rl, r ∈ (spansToTraceTree td).roots) → ∀ acc,
      ∃ ids, getScopeBranchesToUnsampleRoots its (spansToTraceTree td)
        ((fullSpansOf td).length + 1) rl acc = some ids := by
  intro rl
  induction rl with
  | nil => intro _ acc; exact ⟨acc, rfl⟩
  | cons r rest ih =>
    intro hall acc
    obtain ⟨hc2, hc1⟩ := root_chain hnd (hall r (List.mem_cons_self r rest))
    obtain ⟨⟨b1, a1⟩, h1⟩ := unsampleRec_some its hnd
      ((fullSpansOf td).length + 1) 0 r acc (by omega)
      (by simpa using hc2) (by simpa using hc1)
    obtain ⟨ids, hrest⟩ := ih (fun d hd => hall d (List.mem_cons_of_mem _ hd)) a1
    refine ⟨ids, ?_⟩
    have hcons : getScopeBranchesToUnsampleRoots its (spansToTraceTree td)
        ((fullSpansOf td).length + 1) (r :: rest) acc =
        getScopeBranchesToUnsampleRoots its (spansToTraceTree td)
          ((fullSpansOf td).length + 1) rest a1 := by
      rw [getScopeBranchesToUnsampleRoots, h1]
    rw [hcons, hrest]

theorem unsample_terminates (its : InTraceSamplerProcessor) {td : Traces}
    (hnd : UniqueSpanIds td) :
    ∃ ids, getScopeBranchesToUnsample its (spansToTraceTree td)
      ((fullSpansOf td).length + 1) = some ids := by
  rw [getScopeBranchesToUnsample]
  exact unsampleRoots_some its hnd (spansToTraceTree td).roots (fun _ h => h) []

/-! ## The single-trace check -/

theorem getSingleTraceIdLoop_some :
    ∀ (sl : List Span) (t : Nat),
      (getSingleTraceIdLoop (some t) sl = some t ↔ ∀ s ∈ sl, s.traceID = t) ∧
      (∀ t', getSingleTraceIdLoop (some t) sl = some t' → t' = t) := by
  intro sl
  induction sl with
  | nil =>
    intro t
    exact ⟨by simp [getSingleTraceIdLoop], fun t' h => by
      rw [getSingleTraceIdLoop] at h; injection h with h; exact h.symm⟩
  | cons s rest ih =>
    intro t
    rw [getSingleTraceIdLoop]
    by_cases h : s.traceID = t
    · rw [if_pos h]
      constructor
      · rw [(ih t).1]
        constructor
        · intro hall s' hs'
          rcases List.mem_cons.mp hs' with rfl | hs'
          · exact h
          · exact hall s' hs'
        · intro hall s' hs'
          exact hall s' (List.mem_cons_of_mem _ hs')
      · exact (ih t).2
    · rw [if_neg h]
      constructor
      · constructor
        · intro hn
          exact absurd hn (by simp)
        · intro hall
          exact absurd (hall s (List.mem_cons_self s rest)) h
      · intro t' ht'
        exact absurd ht' (by simp)

theorem getSingleTraceId_some_iff {td : Traces} {t : Nat} :
    getSingleTraceId td = some t ↔
      allSpansOf td ≠ [] ∧ ∀ s ∈ allSpansOf td, s.traceID = t := by
  show getSingleTraceIdLoop none (allSpansOf td) = some t ↔ _
  rcases hsl : allSpansOf td with _ | ⟨s, rest⟩
  · rw [getSingleTraceIdLoop]
    simp
  · rw [getSingleTraceIdLoop]
    constructor
    · intro h
      have ht : t = s.traceID := (getSingleTraceIdLoop_some rest s.traceID).2 t h
      subst ht
      have hall := ((getSingleTraceIdLoop_some rest s.traceID).1).mp h
      refine ⟨by simp, ?_⟩
      intro s' hs'
      rcases List.mem_cons.mp hs' with rfl | hs'
      · rfl
      · exact hall s' hs'
    · rintro ⟨_, hall⟩
      have ht : s.traceID = t := hall s (List.mem_cons_self s rest)
      subst ht
      exact ((getSingleTraceIdLoop_some rest s.traceID).1).mpr
        (fun s' hs' => hall s' (List.mem_cons_of_mem _ hs'))

theorem getSingleTraceId_none_iff {td : Traces} :
    getSingleTraceId td = none ↔
      allSpansOf td = [] ∨
        ∃ s1 ∈ allSpansOf td, ∃ s2 ∈ allSpansOf td, s1.traceID ≠ s2.traceID := by
  constructor
  · intro h
    by_cases he : allSpansOf td = []
    · exact Or.inl he
    · right
      by_contra hno
      push_neg at hno
      rcases hsl : allSpansOf td with _ | ⟨s, rest⟩
      · exact he hsl
      have : getSingleTraceId td = some s.traceID := by
        rw [getSingleTraceId_some_iff]
        refine ⟨he, ?_⟩
        intro s' hs'
        exact hno s' hs' s (by rw [hsl]; exact List.mem_cons_self s rest)
      rw [h] at this
      exact absurd this (by simp)
  · intro h
    rcases hres : getSingleTraceId td with _ | t
    · rfl
    · exfalso
      rcases getSingleTraceId_some_iff.mp hres with ⟨hne, hall⟩
      rcases h with he | ⟨s1, h1, s2, h2, hne12⟩
      · exact hne he
      · exact hne12 (by rw [hall s1 h1, hall s2 h2])

/-! ## Case equations for processTraces -/

theorem processTraces_hetero {hash : Nat → Nat → Nat}
    {its : InTraceSamplerProcessor} {fuel : Nat} {td : Traces}
    (h : getSingleTraceId td = none) :
    processTraces hash its fuel td = some td := by
  rw [processTraces, h]

theorem processTraces_eq_of_some {hash : Nat → Nat → Nat}
    {its : InTraceSamplerProcessor} {fuel : Nat} {td : Traces} {tid : Nat}
    (h : getSingleTraceId td = some tid) :
    processTraces hash its fuel td =
      if hash tid its.config.hashSeed &&& bitMaskHashBuckets
          < its.scaledSamplingRate
      then some td else processTracesPrune its fuel td := by
  rw [processTraces, h]

theorem processTracesPrune_eq_of_some {its : InTraceSamplerProcessor}
    {fuel : Nat} {td : Traces} {ids : List Nat}
    (h : getScopeBranchesToUnsample its (spansToTraceTree td) fuel = some ids) :
    processTracesPrune its fuel td =
      if ids.isEmpty then some td
      else some (removeSpansByIds (fun sid => ids.contains sid) td) := by
  rw [processTracesPrune, h]

theorem processTracesPrune_none {its : InTraceSamplerProcessor}
    {fuel : Nat} {td : Traces}
    (h : getScopeBranchesToUnsample its (spansToTraceTree td) fuel = none) :
    processTracesPrune its fuel td = none := by
  rw [processTracesPrune, h]

/-! ## Removal and compaction -/

theorem flatMap_filter_nonempty {α β : Type} (g : α → List β) (q : α → Bool)
    (hq : ∀ x, q x = false → g x = []) :
    ∀ L : List α, (L.filter q).flatMap g = L.flatMap g := by
  intro L
  induction L with
  | nil => rfl
  | cons a L ih =>
    rw [List.flatMap_cons]
    rcases hqa : q a with _ | _
    · rw [List.filter_cons_of_neg (by simp [hqa]), ih, hq a hqa, List.nil_append]
    · rw [List.filter_cons_of_pos hqa, List.flatMap_cons, ih]

theorem filter_flatMap {α β : Type} (g : α → List β) (q : β → Bool) :
    ∀ L : List α, (L.flatMap g).filter q = L.flatMap fun x => (g x).filter q := by
  intro L
  induction L with
  | nil => rfl
  | cons a L ih =>
    rw [List.flatMap_cons, List.filter_append, ih, List.flatMap_cons]

theorem rsFullSpans_removeRS {p : Nat → Bool} {rs : ResourceSpans} :
    rsFullSpans (removeSpansRS p rs)
      = (rsFullSpans rs).filter fun fs => !(p fs.span.spanID) := by
  show ((List.filter (fun ss => !(ss.spans.isEmpty))
      (rs.scopeSpans.map (removeSpansSS p))).flatMap fun ss =>
      ss.spans.map fun sp => FullSpan.mk rs.resource ss.scopeName sp) = _
  rw [flatMap_filter_nonempty _ _ (fun ss h => by
    have : ss.spans = [] := by
      simpa [List.isEmpty_iff] using h
    rw [this]; rfl)]
  rw [List.flatMap_map]
  rw [rsFullSpans, filter_flatMap]
  apply List.flatMap_congr
  intro ss _
  show ((ss.spans.filter fun sp => !(p sp.spanID)).map fun sp =>
      FullSpan.mk rs.resource ss.scopeName sp) = _
  rw [List.filter_map]
  rfl

theorem fullSpansOf_removeSpansByIds {p : Nat → Bool} {td : Traces} :
    fullSpansOf (removeSpansByIds p td)
      = (fullSpansOf td).filter fun fs => !(p fs.span.spanID) := by
  rw [fullSpansOf_eq_flatMap, removeSpansByIds]
  rw [flatMap_filter_nonempty rsFullSpans _ (fun rs h => by
    have : rs.scopeSpans = [] := by simpa [List.isEmpty_iff] using h
    rw [rsFullSpans, this]; rfl)]
  rw [List.flatMap_map]
  have : (td.flatMap fun rs => rsFullSpans (removeSpansRS p rs))
      = td.flatMap fun rs => (rsFullSpans rs).filter fun fs => !(p fs.span.spanID) := by
    apply List.flatMap_congr
    intro rs _
    exact rsFullSpans_removeRS
  rw [this, ← filter_flatMap, ← fullSpansOf_eq_flatMap]

theorem removeSpansByIds_groupings {p : Nat → Bool} {td : Traces} :
    ∀ rs' ∈ removeSpansByIds p td,
      rs'.scopeSpans ≠ [] ∧ ∀ ss' ∈ rs'.scopeSpans, ss'.spans ≠ [] := by
  intro rs' h
  rcases List.mem_filter.mp h with ⟨hm, hne⟩
  constructor
  · intro hemp
    rw [hemp] at hne
    simp at hne
  · intro ss' hss'
    rcases List.mem_map.mp hm with ⟨rs, _, rfl⟩
    have hss2 : ss' ∈ List.filter (fun ss => !(ss.spans.isEmpty))
        (rs.scopeSpans.map (removeSpansSS p)) := hss'
    rcases List.mem_filter.mp hss2 with ⟨_, hne'⟩
    intro hemp
    rw [hemp] at hne'
    simp at hne'

theorem removeSpansByIds_all_marked {p : Nat → Bool} {rs : ResourceSpans}
    {td : Traces}
    (h : ∀ ss ∈ rs.scopeSpans, ∀ sp ∈ ss.spans, p sp.spanID = true) :
    removeSpansByIds p (rs :: td) = removeSpansByIds p td := by
  rw [removeSpansByIds, List.map_cons]
  rw [List.filter_cons_of_neg ?_]
  · rfl
  · have hempty : (removeSpansRS p rs).scopeSpans = [] := by
      show List.filter _ (rs.scopeSpans.map (removeSpansSS p)) = []
      rw [List.filter_eq_nil_iff]
      intro ss' hss'
      rcases List.mem_map.mp hss' with ⟨ss, hss, rfl⟩
      have : (removeSpansSS p ss).spans = [] := by
        show ss.spans.filter _ = []
        rw [List.filter_eq_nil_iff]
        intro sp hsp
        simp [h ss hss sp hsp]
      simp [this]
    simp [hempty]

theorem mem_removeSpansByIds_of_kept {p : Nat → Bool} {td : Traces}
    {rs : ResourceSpans} {ss : ScopeSpans} {sp : Span}
    (hrs : rs ∈ td) (hss : ss ∈ rs.scopeSpans) (hsp : sp ∈ ss.spans)
    (hkeep : p sp.spanID = false) :
    ∃ rs' ∈ removeSpansByIds p td, rs'.resource = rs.resource ∧
      ∃ ss' ∈ rs'.scopeSpans, ss'.scopeName = ss.scopeName ∧ sp ∈ ss'.spans := by
  have hspkept : sp ∈ (removeSpansSS p ss).spans :=
    List.mem_filter.mpr ⟨hsp, by simp [hkeep]⟩
  have hsskept : removeSpansSS p ss ∈ (removeSpansRS p rs).scopeSpans := by
    show _ ∈ List.filter _ (rs.scopeSpans.map (removeSpansSS p))
    refine List.mem_filter.mpr ⟨List.mem_map_of_mem _ hss, ?_⟩
    have := List.ne_nil_of_mem hspkept
    simpa [List.isEmpty_iff] using this
  refine ⟨removeSpansRS p rs, ?_, rfl, removeSpansSS p ss, hsskept, rfl, hspkept⟩
  apply List.mem_filter.mpr
  refine ⟨List.mem_map_of_mem _ hrs, ?_⟩
  have := List.ne_nil_of_mem hsskept
  simpa [List.isEmpty_iff] using this

theorem removeSpansByIds_sub {p : Nat → Bool} {td : Traces} :
    ∀ rs' ∈ removeSpansByIds p td, ∃ rs ∈ td, rs'.resource = rs.resource ∧
      ∀ ss' ∈ rs'.scopeSpans, ∃ ss ∈ rs.scopeSpans,
        ss'.scopeName = ss.scopeName ∧ ∀ sp ∈ ss'.spans, sp ∈ ss.spans := by
  intro rs' h
  rcases List.mem_filter.mp h with ⟨hm, _⟩
  rcases List.mem_map.mp hm with ⟨rs, hrs, rfl⟩
  refine ⟨rs, hrs, rfl, ?_⟩
  intro ss' hss'
  have hss2 : ss' ∈ List.filter (fun ss => !(ss.spans.isEmpty))
      (rs.scopeSpans.map (removeSpansSS p)) := hss'
  rcases List.mem_filter.mp hss2 with ⟨hm2, _⟩
  rcases List.mem_map.mp hm2 with ⟨ss, hss, rfl⟩
  refine ⟨ss, hss, rfl, ?_⟩
  intro sp hsp
  exact (List.mem_filter.mp hsp).1

/-! ## Fuel stability of the evaluator -/

theorem unsampleKids_mono {go go' : Nat → List Nat → Option (Bool × List Nat)}
    (hgo : ∀ c acc r, go c acc = some r → go' c acc = some r) :
    ∀ cl acc r, getScopeBranchesToUnsampleKids go cl acc = some r →
      getScopeBranchesToUnsampleKids go' cl acc = some r := by
  intro cl
  induction cl with
  | nil => intro acc r h; exact h
  | cons c cs ih =>
    intro acc r h
    rw [getScopeBranchesToUnsampleKids] at h
    split at h
    · exact absurd h (by simp)
    · rename_i b1 a1 h1
      rw [unsampleKids_cons_some (hgo c acc (b1, a1) h1)]
      split at h
      · exact absurd h (by simp)
      · rename_i b2 a2 h2
        rw [ih a1 (b2, a2) h2]
        exact h

theorem unsampleRec_mono (its : InTraceSamplerProcessor) (tree : TraceTreeData) :
    ∀ fuel fuel2 sid acc r, fuel ≤ fuel2 →
      getScopeBranchesToUnsampleRec its tree fuel sid acc = some r →
      getScopeBranchesToUnsampleRec its tree fuel2 sid acc = some r := by
  intro fuel
  induction fuel with
  | zero =>
    intro fuel2 sid acc r _ h
    rw [getScopeBranchesToUnsampleRec] at h
    exact absurd h (by simp)
  | succ f ih =>
    intro fuel2 sid acc r hle h
    cases fuel2 with
    | zero => omega
    | succ f2 =>
      have hf : f ≤ f2 := by omega
      rw [getScopeBranchesToUnsampleRec] at h
      split at h
      · exact absurd h (by simp)
      · rename_i kb acc1 hk
        have hk2 := unsampleKids_mono (fun c a r2 hh => ih f2 c a r2 hf hh)
          (tree.children sid) acc (kb, acc1) hk
        rw [getScopeBranchesToUnsampleRec, hk2]
        exact h

theorem unsampleRoots_mono (its : InTraceSamplerProcessor) (tree : TraceTreeData)
    {fuel fuel2 : Nat} (hle : fuel ≤ fuel2) :
    ∀ rl acc ids,
      getScopeBranchesToUnsampleRoots its tree fuel rl acc = some ids →
      getScopeBranchesToUnsampleRoots its tree fuel2 rl acc = some ids := by
  intro rl
  induction rl with
  | nil => intro acc ids h; exact h
  | cons r rest ih =>
    intro acc ids h
    rw [getScopeBranchesToUnsampleRoots] at h
    split at h
    · exact absurd h (by simp)
    · rename_i b1 a1 h1
      have h2 := unsampleRec_mono its tree fuel fuel2 r acc (b1, a1) hle h1
      rw [getScopeBranchesToUnsampleRoots, h2]
      exact ih a1 ids h

theorem unsample_mono (its : InTraceSamplerProcessor) (tree : TraceTreeData)
    {fuel fuel2 : Nat} {ids : List Nat} (hle : fuel ≤ fuel2)
    (h : getScopeBranchesToUnsample its tree fuel = some ids) :
    getScopeBranchesToUnsample its tree fuel2 = some ids :=
  unsampleRoots_mono its tree hle tree.roots [] ids h

/-! ## Transfer lemmas from a batch to its pruned batch -/

theorem mem_ids_remove {p : Nat → Bool} {td : Traces} {y : Nat} :
    y ∈ idsOf (fullSpansOf (removeSpansByIds p td)) ↔
      y ∈ idsOf (fullSpansOf td) ∧ p y = false := by
  rw [fullSpansOf_removeSpansByIds]
  constructor
  · intro h
    rcases mem_idsOf.mp h with ⟨fs, hm, hid⟩
    rcases List.mem_filter.mp hm with ⟨hmem, hkeep⟩
    subst hid
    refine ⟨mem_idsOf.mpr ⟨fs, hmem, rfl⟩, ?_⟩
    simpa using hkeep
  · rintro ⟨h, hp⟩
    rcases mem_idsOf.mp h with ⟨fs, hm, hid⟩
    subst hid
    exact mem_idsOf.mpr ⟨fs, List.mem_filter.mpr ⟨hm, by simp [hp]⟩, rfl⟩

theorem nodup_ids_remove {p : Nat → Bool} {td : Traces}
    (hnd : UniqueSpanIds td) : UniqueSpanIds (removeSpansByIds p td) := by
  unfold UniqueSpanIds at hnd ⊢
  rw [fullSpansOf_removeSpansByIds]
  unfold idsOf at hnd ⊢
  exact List.Nodup.sublist ((List.filter_sublist _).map _) hnd

theorem lookup_remove_eq {p : Nat → Bool} {td : Traces} {y : Nat}
    (hnd : UniqueSpanIds td)
    (hy : y ∈ idsOf (fullSpansOf (removeSpansByIds p td))) :
    lookupSpan (fullSpansOf (removeSpansByIds p td)) y
      = lookupSpan (fullSpansOf td) y := by
  rcases mem_idsOf.mp hy with ⟨fs, hm, hid⟩
  have hm2 : fs ∈ fullSpansOf td := by
    rw [fullSpansOf_removeSpansByIds] at hm
    exact (List.mem_filter.mp hm).1
  rw [lookupSpan_eq_some_of_nodup (nodup_ids_remove hnd) hm hid,
    lookupSpan_eq_some_of_nodup hnd hm2 hid]

theorem scopeIsLeaf_remove_eq {its : InTraceSamplerProcessor} {p : Nat → Bool}
    {td : Traces} {y : Nat} (hnd : UniqueSpanIds td)
    (hy : y ∈ idsOf (fullSpansOf (removeSpansByIds p td))) :
    scopeIsLeaf its (spansToTraceTree (removeSpansByIds p td)) y
      = scopeIsLeaf its (spansToTraceTree td) y := by
  unfold scopeIsLeaf
  rw [spansToTraceTree_fullSpans, spansToTraceTree_fullSpans,
    lookup_remove_eq hnd hy]

theorem children_remove_mem {p : Nat → Bool} {td : Traces} {x c : Nat}
    (hc : c ∈ childrenOf (fullSpansOf td) x) (hp : p c = false) :
    c ∈ childrenOf (fullSpansOf (removeSpansByIds p td)) x := by
  rcases mem_childrenOf.mp hc with ⟨fs, hm, hid, hpar⟩
  rw [fullSpansOf_removeSpansByIds]
  exact mem_childrenOf.mpr
    ⟨fs, List.mem_filter.mpr ⟨hm, by simp [hid, hp]⟩, hid, hpar⟩

theorem allSpans_remove_sub {p : Nat → Bool} {td : Traces} :
    ∀ s ∈ allSpansOf (removeSpansByIds p td), s ∈ allSpansOf td := by
  intro s hs
  rcases List.mem_map.mp hs with ⟨fs, hm, rfl⟩
  rw [fullSpansOf_removeSpansByIds] at hm
  exact List.mem_map_of_mem _ ((List.mem_filter.mp hm).1)

/-! ## The evaluator marks exactly the all-leaf subtrees -/

theorem unsample_mem_iff {its : InTraceSamplerProcessor} {td : Traces}
    {fuel : Nat} {ids : List Nat} (hnd : UniqueSpanIds td)
    (hacy : AcyclicParents td)
    (h : getScopeBranchesToUnsample its (spansToTraceTree td) fuel = some ids) :
    ∀ y, y ∈ ids ↔ y ∈ idsOf (fullSpansOf td) ∧
      SubtreeAllLeaves its (spansToTraceTree td) y := by
  intro y
  rw [unsample_spec hwf_tree h y]
  constructor
  · rintro ⟨r, hr, hreach, hsub⟩
    exact ⟨reach_mem_ids (roots_subset_ids hr) hreach, hsub⟩
  · rintro ⟨hy, hsub⟩
    rcases mem_idsOf.mp hy with ⟨fs, hm, hid⟩
    obtain ⟨n, hch⟩ := hacy fs hm
    rw [hid] at hch
    obtain ⟨r, hr, hreach⟩ := reach_root_of_chainExits hnd n y hy hch
    exact ⟨r, hr, hreach, hsub⟩

theorem reach_remove {its : InTraceSamplerProcessor} {td : Traces}
    {ids : List Nat}
    (hsem : ∀ z, z ∈ ids ↔ z ∈ idsOf (fullSpansOf td) ∧
      SubtreeAllLeaves its (spansToTraceTree td) z) :
    ∀ {y d}, Reach (spansToTraceTree td) y d →
      scopeIsLeaf its (spansToTraceTree td) d = false →
      Reach (spansToTraceTree
        (removeSpansByIds (fun sid => ids.contains sid) td)) y d := by
  intro y d hreach
  induction hreach with
  | refl x => intro _; exact Reach.refl x
  | step hc hr ih =>
    rename_i x c e
    intro hleaf
    have hcnot : c ∉ ids := by
      intro hcin
      have := ((hsem c).mp hcin).2 e hr
      rw [hleaf] at this
      exact absurd this (by simp)
    have hp : (fun sid => ids.contains sid) c = false := by
      simp only [← Bool.not_eq_true]
      intro hcon
      exact hcnot (by simpa using hcon)
    refine Reach.step ?_ (ih hleaf)
    rw [spansToTraceTree_children] at hc ⊢
    exact children_remove_mem hc hp

theorem no_prunable_survivor {its : InTraceSamplerProcessor} {td : Traces}
    {ids : List Nat} (hnd : UniqueSpanIds td)
    (hsem : ∀ z, z ∈ ids ↔ z ∈ idsOf (fullSpansOf td) ∧
      SubtreeAllLeaves its (spansToTraceTree td) z) :
    ∀ y, y ∈ idsOf (fullSpansOf
        (removeSpansByIds (fun sid => ids.contains sid) td)) →
      ¬ SubtreeAllLeaves its (spansToTraceTree
        (removeSpansByIds (fun sid => ids.contains sid) td)) y := by
  intro y hy hsuball
  obtain ⟨hytd, hpy⟩ := mem_ids_remove.mp hy
  have hynotin : y ∉ ids := by
    intro hc
    have hcon : ids.contains y = true := by simpa using hc
    rw [hpy] at hcon
    exact absurd hcon (by simp)
  have hsub_td : SubtreeAllLeaves its (spansToTraceTree td) y := by
    intro d hd
    by_contra hdleaf
    rw [Bool.not_eq_true] at hdleaf
    have hreach_out := reach_remove hsem hd hdleaf
    have hleaf_out := hsuball d hreach_out
    have hdtd : d ∈ idsOf (fullSpansOf td) := reach_mem_ids hytd hd
    have hdnot : d ∉ ids := by
      intro hdin
      have := ((hsem d).mp hdin).2 d (Reach.refl d)
      rw [hdleaf] at this
      exact absurd this (by simp)
    have hdy : d ∈ idsOf (fullSpansOf
        (removeSpansByIds (fun sid => ids.contains sid) td)) := by
      refine mem_ids_remove.mpr ⟨hdtd, ?_⟩
      simp only [← Bool.not_eq_true]
      intro hcon
      exact hdnot (by simpa using hcon)
    rw [scopeIsLeaf_remove_eq hnd hdy, hdleaf] at hleaf_out
    exact absurd hleaf_out (by simp)
  exact hynotin ((hsem y).mpr ⟨hytd, hsub_td⟩)

theorem unsample_mem_sound {its : InTraceSamplerProcessor} {td : Traces}
    {fuel : Nat} {ids : List Nat}
    (h : getScopeBranchesToUnsample its (spansToTraceTree td) fuel = some ids) :
    ∀ y ∈ ids, y ∈ idsOf (fullSpansOf td) ∧
      SubtreeAllLeaves its (spansToTraceTree td) y := by
  intro y hy
  obtain ⟨r, hr, hreach, hsub⟩ := (unsample_spec hwf_tree h y).mp hy
  exact ⟨reach_mem_ids (roots_subset_ids hr) hreach, hsub⟩

theorem mem_fullSpansOf_of {td : Traces} {rs : ResourceSpans} {ss : ScopeSpans}
    {sp : Span} (hrs : rs ∈ td) (hss : ss ∈ rs.scopeSpans) (hsp : sp ∈ ss.spans) :
    (⟨rs.resource, ss.scopeName, sp⟩ : FullSpan) ∈ fullSpansOf td := by
  rw [fullSpansOf_eq_flatMap]
  refine List.mem_flatMap.mpr ⟨rs, hrs, ?_⟩
  rw [rsFullSpans]
  exact List.mem_flatMap.mpr ⟨ss, hss, List.mem_map_of_mem _ hsp⟩

/-! ## Each span is reached from at most one root -/

theorem uniq_inj {td : Traces} (hnd : UniqueSpanIds td) {fs gs : FullSpan}
    (hm1 : fs ∈ fullSpansOf td) (hm2 : gs ∈ fullSpansOf td)
    (hid : fs.span.spanID = gs.span.spanID) : fs = gs := by
  have hinj := List.inj_on_of_nodup_map
    (f := fun fs : FullSpan => fs.span.spanID) hnd
  exact hinj hm1 hm2 hid

theorem reach_pred {tree : TraceTreeData} {p q : Nat} (h : Reach tree p q) :
    p = q ∨ ∃ z, Reach tree p z ∧ q ∈ tree.children z := by
  induction h with
  | refl x => exact Or.inl rfl
  | step hc hr ih =>
    rename_i x c d
    rcases ih with rfl | ⟨z, hz, hq⟩
    · exact Or.inr ⟨x, Reach.refl x, hc⟩
    · exact Or.inr ⟨z, Reach.step hc hz, hq⟩

theorem children_parent_unique {td : Traces} (hnd : UniqueSpanIds td)
    {c z a : Nat} (h1 : c ∈ childrenOf (fullSpansOf td) z)
    (h2 : c ∈ childrenOf (fullSpansOf td) a) : z = a := by
  rcases mem_childrenOf.mp h1 with ⟨fs, hm, hid, hpar⟩
  rcases mem_childrenOf.mp h2 with ⟨gs, hm2, hid2, hpar2⟩
  have heq : fs = gs := uniq_inj hnd hm hm2 (by rw [hid, hid2])
  subst heq
  rw [← hpar, ← hpar2]

theorem root_no_parent_mem {td : Traces} (hnd : UniqueSpanIds td) {r a : Nat}
    (hr : r ∈ (spansToTraceTree td).roots)
    (hc : r ∈ childrenOf (fullSpansOf td) a) :
    a ∉ idsOf (fullSpansOf td) := by
  intro ha
  obtain ⟨fs, hlk, hpn⟩ := (mem_roots_iff hnd).mp hr
  rcases mem_childrenOf.mp hc with ⟨gs, hm, hid, hpar⟩
  have heq : gs = fs := by
    rcases lookupSpan_mem hlk with ⟨hmf, hidf⟩
    exact uniq_inj hnd hm hmf (hid.trans hidf.symm)
  subst heq
  rw [hpar] at hpn
  rcases mem_idsOf.mp ha with ⟨ks, hkm, hkid⟩
  exact absurd hkid (lookupSpan_eq_none.mp hpn ks hkm)

theorem reach_to_root {td : Traces} (hnd : UniqueSpanIds td) {a r : Nat}
    (h : Reach (spansToTraceTree td) a r) :
    r ∈ (spansToTraceTree td).roots → a ∈ idsOf (fullSpansOf td) → a = r := by
  induction h with
  | refl x => intro _ _; rfl
  | step hc hr ih =>
    rename_i x c d
    intro hroot ha
    have hc_ids : c ∈ idsOf (fullSpansOf td) := by
      rw [spansToTraceTree_children] at hc
      rcases mem_childrenOf.mp hc with ⟨fs, hm, hid, _⟩
      exact mem_idsOf.mpr ⟨fs, hm, hid⟩
    have hcd : c = d := ih hroot hc_ids
    subst hcd
    rw [spansToTraceTree_children] at hc
    exact absurd ha (root_no_parent_mem hnd hroot hc)

theorem reach_ancestor {td : Traces} (hnd : UniqueSpanIds td) {a x : Nat}
    (h : Reach (spansToTraceTree td) a x) :
    a ∈ idsOf (fullSpansOf td) →
    ∀ r ∈ (spansToTraceTree td).roots, Reach (spansToTraceTree td) r x →
      Reach (spansToTraceTree td) r a := by
  induction h with
  | refl y => intro _ r _ hr; exact hr
  | step hc hr ih =>
    rename_i p c d
    intro hp r hroot hrx
    have hc_ids : c ∈ idsOf (fullSpansOf td) := by
      rw [spansToTraceTree_children] at hc
      rcases mem_childrenOf.mp hc with ⟨fs, hm, hid, _⟩
      exact mem_idsOf.mpr ⟨fs, hm, hid⟩
    have hrc : Reach (spansToTraceTree td) r c := ih hc_ids r hroot hrx
    rcases reach_pred hrc with rfl | ⟨z, hrz, hcz⟩
    · rw [spansToTraceTree_children] at hc
      exact absurd hp (root_no_parent_mem hnd hroot hc)
    · rw [spansToTraceTree_children] at hc hcz
      have hzp : z = p := children_parent_unique hnd hcz hc
      subst hzp
      exact hrz

theorem visiting_root_unique {td : Traces} (hnd : UniqueSpanIds td)
    {x r1 r2 : Nat}
    (h1 : r1 ∈ (spansToTraceTree td).roots)
    (h2 : r2 ∈ (spansToTraceTree td).roots)
    (hr1 : Reach (spansToTraceTree td) r1 x)
    (hr2 : Reach (spansToTraceTree td) r2 x) : r1 = r2 := by
  have h21 : Reach (spansToTraceTree td) r2 r1 :=
    reach_ancestor hnd hr1 (roots_subset_ids h1) r2 h2 hr2
  exact (reach_to_root hnd h21 h1 (roots_subset_ids h2)).symm

/-! ## The sampling decision arithmetic -/

theorem and_mask_eq_mod (n : Nat) :
    n &&& bitMaskHashBuckets = n % numHashBuckets := by
  show n &&& (0x4000 - 1) = n % 0x4000
  rw [show (0x4000 - 1 : Nat) = 2 ^ 14 - 1 by norm_num,
    Nat.and_pow_two_sub_one_eq_mod, show (2 ^ 14 : Nat) = 0x4000 by norm_num]

theorem and_mask_lt (n : Nat) : n &&& bitMaskHashBuckets < numHashBuckets := by
  rw [and_mask_eq_mod]
  exact Nat.mod_lt _ (by norm_num [numHashBuckets])

theorem scaled_rate_zero :
    ((⌊(0 : ℚ) * percentageScaleFactor⌋).toNat) = 0 := by
  norm_num

theorem scaled_rate_hundred :
    ((⌊(100 : ℚ) * percentageScaleFactor⌋).toNat) = numHashBuckets := by
  rw [percentageScaleFactor, numHashBuckets]
  norm_num
  rfl

/-! ## The claims -/

/-- C2: for every trace identity, seed and `SamplingPercentage ∈ [0,100]`,
the whole-trace accept decision equals
`hash(traceID, seed) & (16384 - 1) < floor(SamplingPercentage * 16384 / 100)`
with the exact rational floor, and an accepted single-trace batch is
forwarded unchanged. -/
theorem c2_sampling_decision :
    ∀ (hash : Nat → Nat → Nat) (cfg : Config) (tid : Nat),
      0 ≤ cfg.samplingPercentage → cfg.samplingPercentage ≤ 100 →
      ((hash tid cfg.hashSeed &&& bitMaskHashBuckets
          < (newInTraceSamplerSpansProcessor cfg).scaledSamplingRate ↔
        ((hash tid cfg.hashSeed &&& (numHashBuckets - 1) : Nat) : ℤ)
          < ⌊cfg.samplingPercentage * (numHashBuckets : ℚ) / 100⌋) ∧
      (∀ (td : Traces) (fuel : Nat),
        getSingleTraceId td = some tid →
        hash tid cfg.hashSeed &&& bitMaskHashBuckets
          < (newInTraceSamplerSpansProcessor cfg).scaledSamplingRate →
        processTraces hash (newInTraceSamplerSpansProcessor cfg) fuel td
          = some td)) := by
  intro hash cfg tid _hp0 _hp100
  constructor
  · show hash tid cfg.hashSeed &&& bitMaskHashBuckets
        < (⌊cfg.samplingPercentage * percentageScaleFactor⌋).toNat ↔ _
    rw [Int.lt_toNat]
    have hq : cfg.samplingPercentage * percentageScaleFactor
        = cfg.samplingPercentage * (numHashBuckets : ℚ) / 100 := by
      rw [percentageScaleFactor]
      ring
    rw [hq]
    exact Iff.rfl
  · intro td fuel hst hdec
    rw [processTraces_eq_of_some hst,
      if_pos (show hash tid (newInTraceSamplerSpansProcessor cfg).config.hashSeed
          &&& bitMaskHashBuckets
          < (newInTraceSamplerSpansProcessor cfg).scaledSamplingRate from hdec)]

theorem c2_sampling_decision_witness :
    (0 : ℚ) ≤ cfg100.samplingPercentage ∧ cfg100.samplingPercentage ≤ 100 ∧
    getSingleTraceId tdOne = some 7 ∧
    processTraces hashZero (newInTraceSamplerSpansProcessor cfg100) 5 tdOne
      = some tdOne := by
  refine ⟨by norm_num [cfg100], by norm_num [cfg100], by decide, ?_⟩
  refine (c2_sampling_decision hashZero cfg100 7 (by norm_num [cfg100])
    (by norm_num [cfg100])).2 tdOne 5 (by decide) ?_
  rw [show (newInTraceSamplerSpansProcessor cfg100).scaledSamplingRate
      = numHashBuckets from scaled_rate_hundred]
  exact and_mask_lt _

/-- C3: at `SamplingPercentage = 0` the sampling decision never wholly
accepts a trace; at `100` it wholly accepts every trace (and the batch is
forwarded unchanged). -/
theorem c3_boundary :
    ∀ (hash : Nat → Nat → Nat) (cfg : Config) (tid : Nat) (td : Traces)
      (fuel : Nat),
      (cfg.samplingPercentage = 0 →
        ¬ (hash tid cfg.hashSeed &&& bitMaskHashBuckets
            < (newInTraceSamplerSpansProcessor cfg).scaledSamplingRate)) ∧
      (cfg.samplingPercentage = 100 →
        (hash tid cfg.hashSeed &&& bitMaskHashBuckets
            < (newInTraceSamplerSpansProcessor cfg).scaledSamplingRate) ∧
        processTraces hash (newInTraceSamplerSpansProcessor cfg) fuel td
          = some td) := by
  intro hash cfg tid td fuel
  constructor
  · intro h0
    show ¬ (hash tid cfg.hashSeed &&& bitMaskHashBuckets
        < (⌊cfg.samplingPercentage * percentageScaleFactor⌋).toNat)
    rw [h0, scaled_rate_zero]
    omega
  · intro h100
    have hrate : (newInTraceSamplerSpansProcessor cfg).scaledSamplingRate
        = numHashBuckets := by
      show (⌊cfg.samplingPercentage * percentageScaleFactor⌋).toNat = _
      rw [h100]
      exact scaled_rate_hundred
    have hdec : hash tid cfg.hashSeed &&& bitMaskHashBuckets
        < (newInTraceSamplerSpansProcessor cfg).scaledSamplingRate := by
      rw [hrate]
      exact and_mask_lt _
    refine ⟨hdec, ?_⟩
    rcases hst : getSingleTraceId td with _ | t
    · exact processTraces_hetero hst
    · rw [processTraces_eq_of_some hst]
      have hdect : hash t (newInTraceSamplerSpansProcessor cfg).config.hashSeed
          &&& bitMaskHashBuckets
          < (newInTraceSamplerSpansProcessor cfg).scaledSamplingRate := by
        rw [hrate]
        exact and_mask_lt _
      rw [if_pos hdect]

theorem c3_boundary_witness :
    cfg0.samplingPercentage = 0 ∧
    ¬ (hashZero 7 cfg0.hashSeed &&& bitMaskHashBuckets
        < (newInTraceSamplerSpansProcessor cfg0).scaledSamplingRate) ∧
    cfg100.samplingPercentage = 100 ∧
    processTraces hashZero (newInTraceSamplerSpansProcessor cfg100) 5 tdOne
      = some tdOne :=
  ⟨rfl, (c3_boundary hashZero cfg0 7 tdOne 5).1 rfl,
   rfl, ((c3_boundary hashZero cfg100 7 tdOne 5).2 rfl).2⟩

/-- C4: an empty or heterogeneous batch passes through unchanged, and the
single-trace check returns `none` exactly for the empty or heterogeneous
batches and the shared identity exactly when all spans agree. -/
theorem c4_heterogeneous_passthrough :
    ∀ (hash : Nat → Nat → Nat) (its : InTraceSamplerProcessor) (fuel : Nat)
      (td : Traces),
      ((allSpansOf td = [] ∨ ∃ s1 ∈ allSpansOf td, ∃ s2 ∈ allSpansOf td,
          s1.traceID ≠ s2.traceID) →
        processTraces hash its fuel td = some td) ∧
      (getSingleTraceId td = none ↔ allSpansOf td = [] ∨
        ∃ s1 ∈ allSpansOf td, ∃ s2 ∈ allSpansOf td, s1.traceID ≠ s2.traceID) ∧
      (∀ t, getSingleTraceId td = some t ↔
        allSpansOf td ≠ [] ∧ ∀ s ∈ allSpansOf td, s.traceID = t) := by
  intro hash its fuel td
  refine ⟨?_, getSingleTraceId_none_iff, fun t => getSingleTraceId_some_iff⟩
  intro h
  exact processTraces_hetero (getSingleTraceId_none_iff.mpr h)

theorem c4_heterogeneous_passthrough_witness :
    (∃ s1 ∈ allSpansOf tdHet, ∃ s2 ∈ allSpansOf tdHet,
      s1.traceID ≠ s2.traceID) ∧
    processTraces hashZero itsDropZero 5 tdHet = some tdHet := by
  have h : ∃ s1 ∈ allSpansOf tdHet, ∃ s2 ∈ allSpansOf tdHet,
      s1.traceID ≠ s2.traceID := by decide
  exact ⟨h, (c4_heterogeneous_passthrough hashZero itsDropZero 5 tdHet).1
    (Or.inr h)⟩

/-- C5: after span removal every scope grouping that has become empty is
removed and every resource grouping whose scope groupings were all removed
is removed; in particular a resource grouping all of whose spans are marked
disappears entirely from the output. -/
theorem c5_compaction :
    ∀ (ids : Nat → Bool) (td : Traces),
      (∃ n, ids n = true) →
      (∀ rs' ∈ removeSpansByIds ids td,
        rs'.scopeSpans ≠ [] ∧ ∀ ss' ∈ rs'.scopeSpans, ss'.spans ≠ []) ∧
      (∀ rs : ResourceSpans,
        (∀ ss ∈ rs.scopeSpans, ∀ sp ∈ ss.spans, ids sp.spanID = true) →
        removeSpansByIds ids (rs :: td) = removeSpansByIds ids td) := by
  intro ids td _
  exact ⟨removeSpansByIds_groupings, fun rs h => removeSpansByIds_all_marked h⟩

theorem c5_compaction_witness :
    ((fun sid => sid == 4) 4 : Bool) = true ∧
    removeSpansByIds (fun sid => sid == 4) (rsAll4 :: [])
      = removeSpansByIds (fun sid => sid == 4) [] :=
  ⟨rfl, (c5_compaction (fun sid => sid == 4) [] ⟨4, rfl⟩).2 rsAll4 (by decide)⟩

/-- C8: for unique-identity batches, the tree's roots are exactly the span
identities present in the span map whose parent identity has no entry;
hence roots are keys of the map and every non-root span's parent key
exists in the map. -/
theorem c8_roots_invariant :
    ∀ td : Traces, UniqueSpanIds td →
      (∀ x, x ∈ (spansToTraceTree td).roots ↔
        ∃ fs, (spansToTraceTree td).fullSpans x = some fs ∧
          (spansToTraceTree td).fullSpans fs.span.parentSpanID = none) ∧
      (∀ x ∈ (spansToTraceTree td).roots,
        ((spansToTraceTree td).fullSpans x).isSome) ∧
      (∀ x fs, (spansToTraceTree td).fullSpans x = some fs →
        x ∉ (spansToTraceTree td).roots →
        ((spansToTraceTree td).fullSpans fs.span.parentSpanID).isSome) := by
  intro td hnd
  have hiff : ∀ x, x ∈ (spansToTraceTree td).roots ↔
      ∃ fs, (spansToTraceTree td).fullSpans x = some fs ∧
        (spansToTraceTree td).fullSpans fs.span.parentSpanID = none := by
    intro x
    rw [spansToTraceTree_fullSpans]
    exact mem_roots_iff hnd
  refine ⟨hiff, ?_, ?_⟩
  · intro x hx
    obtain ⟨fs, h1, _⟩ := (hiff x).mp hx
    rw [h1]
    rfl
  · intro x fs h1 hnr
    rcases hp : (spansToTraceTree td).fullSpans fs.span.parentSpanID with _ | gs
    · exact absurd ((hiff x).mpr ⟨fs, h1, hp⟩) hnr
    · rfl

theorem c8_roots_invariant_witness :
    UniqueSpanIds tdE2E ∧ ((spansToTraceTree tdE2E).fullSpans 1).isSome :=
  ⟨by decide, (c8_roots_invariant tdE2E (by decide)).2.1 1 (by decide)⟩

theorem processTraces_cases {hash : Nat → Nat → Nat}
    {its : InTraceSamplerProcessor} {fuel : Nat} {td out : Traces}
    (h : processTraces hash its fuel td = some out) :
    out = td ∨ ∃ ids : List Nat, ids ≠ [] ∧
      getScopeBranchesToUnsample its (spansToTraceTree td) fuel = some ids ∧
      out = removeSpansByIds (fun sid => ids.contains sid) td := by
  rcases hst : getSingleTraceId td with _ | tid
  · rw [processTraces_hetero hst] at h
    injection h with h
    exact Or.inl h.symm
  · rw [processTraces_eq_of_some hst] at h
    by_cases hdec : hash tid its.config.hashSeed &&& bitMaskHashBuckets
        < its.scaledSamplingRate
    · rw [if_pos hdec] at h
      injection h with h
      exact Or.inl h.symm
    · rw [if_neg hdec] at h
      rcases hm : getScopeBranchesToUnsample its (spansToTraceTree td) fuel
        with _ | ids
      · rw [processTracesPrune_none hm] at h
        exact absurd h (by simp)
      · rw [processTracesPrune_eq_of_some hm] at h
        by_cases hids : ids.isEmpty
        · rw [if_pos hids] at h
          injection h with h
          exact Or.inl h.symm
        · rw [if_neg hids] at h
          injection h with h
          exact Or.inr ⟨ids, by simpa [List.isEmpty_iff] using hids, rfl, h.symm⟩

/-- C9 counterexample: the batch `td9ex` carries an empty scope grouping
`"x"` none of whose spans were removed (it has none), yet the output drops
it: the removal pass collapses every empty grouping, not only those emptied
by this removal. -/
theorem c9_counterexample :
    processTraces hashZero itsDropZero 10 td9ex = some [] ∧
    td9ex = [⟨0, [⟨"x", []⟩, ⟨"drop", [⟨1, 0, 7, 0⟩]⟩]⟩] := by decide

/-- C9 (amended): the output of `processTraces` is either the input
unchanged, or the input with a non-empty set of spans removed where every
scope grouping that is empty after removal (including groupings already
empty in the input) and every resource grouping left without scope
groupings is collapsed; every surviving grouping keeps its resource, scope
name and spans from the input. -/
theorem c9_output_shape :
    ∀ (hash : Nat → Nat → Nat) (its : InTraceSamplerProcessor) (fuel : Nat)
      (td out : Traces),
      processTraces hash its fuel td = some out →
      out = td ∨ ∃ ids : List Nat, ids ≠ [] ∧
        out = removeSpansByIds (fun sid => ids.contains sid) td ∧
        (∀ rs' ∈ out, rs'.scopeSpans ≠ [] ∧
          ∀ ss' ∈ rs'.scopeSpans, ss'.spans ≠ []) ∧
        (∀ rs' ∈ out, ∃ rs ∈ td, rs'.resource = rs.resource ∧
          ∀ ss' ∈ rs'.scopeSpans, ∃ ss ∈ rs.scopeSpans,
            ss'.scopeName = ss.scopeName ∧ ∀ sp ∈ ss'.spans, sp ∈ ss.spans) := by
  intro hash its fuel td out h
  rcases processTraces_cases h with h1 | ⟨ids, hne, _, hout⟩
  · exact Or.inl h1
  · subst hout
    exact Or.inr ⟨ids, hne, rfl, removeSpansByIds_groupings, removeSpansByIds_sub⟩

theorem c9_output_shape_witness :
    processTraces hashZero itsDropZero 10 td9ex = some [] ∧
    (([] : Traces) = td9ex ∨ ∃ ids : List Nat, ids ≠ [] ∧
      ([] : Traces) = removeSpansByIds (fun sid => ids.contains sid) td9ex ∧
      (∀ rs' ∈ ([] : Traces), rs'.scopeSpans ≠ [] ∧
        ∀ ss' ∈ rs'.scopeSpans, ss'.spans ≠ []) ∧
      (∀ rs' ∈ ([] : Traces), ∃ rs ∈ td9ex, rs'.resource = rs.resource ∧
        ∀ ss' ∈ rs'.scopeSpans, ∃ ss ∈ rs.scopeSpans,
          ss'.scopeName = ss.scopeName ∧ ∀ sp ∈ ss'.spans, sp ∈ ss.spans)) :=
  ⟨by decide, c9_output_shape hashZero itsDropZero 10 td9ex [] (by decide)⟩

/-- C10 counterexample: with duplicate span identities the batch `td10ex`
loses its `"keep"`-scoped span even though `"keep"` is not in `ScopeLeaves`:
removal is by identity, and the identity is marked through the overriding
`"drop"`-scoped map entry. -/
theorem c10_counterexample :
    processTraces hashZero itsDropZero 10 td10ex = some [] ∧
    itsDropZero.config.scopeLeaves.contains "keep" = false ∧
    td10ex = [⟨0, [⟨"keep", [⟨1, 0, 7, 0⟩]⟩, ⟨"drop", [⟨1, 0, 7, 1⟩]⟩]⟩] := by
  decide

/-- C10 (amended): for batches with unique span identities, every span
whose scope grouping's name is not in `ScopeLeaves` survives in the output
under its resource and scope, and the output is the input either unchanged
or with spans deleted and emptied groupings collapsed (no other mutation). -/
theorem c10_frame :
    ∀ (hash : Nat → Nat → Nat) (its : InTraceSamplerProcessor) (fuel : Nat)
      (td out : Traces),
      UniqueSpanIds td →
      processTraces hash its fuel td = some out →
      (∀ rs ∈ td, ∀ ss ∈ rs.scopeSpans,
        its.config.scopeLeaves.contains ss.scopeName = false →
        ∀ sp ∈ ss.spans,
          ∃ rs' ∈ out, rs'.resource = rs.resource ∧
            ∃ ss' ∈ rs'.scopeSpans, ss'.scopeName = ss.scopeName ∧
              sp ∈ ss'.spans) ∧
      (out = td ∨ ∃ p : Nat → Bool, out = removeSpansByIds p td) := by
  intro hash its fuel td out hnd h
  rcases processTraces_cases h with h1 | ⟨ids, _, hm, hout⟩
  · subst h1
    exact ⟨fun rs hrs ss hss _ sp hsp => ⟨rs, hrs, rfl, ss, hss, rfl, hsp⟩,
      Or.inl rfl⟩
  · subst hout
    refine ⟨?_, Or.inr ⟨fun sid => ids.contains sid, rfl⟩⟩
    intro rs hrs ss hss hscope sp hsp
    have hnotin : sp.spanID ∉ ids := by
      intro hin
      have hsound := (unsample_mem_sound hm sp.spanID hin).2
      have hleaf := hsound sp.spanID (Reach.refl sp.spanID)
      unfold scopeIsLeaf at hleaf
      rw [spansToTraceTree_fullSpans,
        lookupSpan_eq_some_of_nodup hnd (mem_fullSpansOf_of hrs hss hsp) rfl]
        at hleaf
      have hcon : its.config.scopeLeaves.contains ss.scopeName = true := by
        simpa using hleaf
      rw [hscope] at hcon
      exact absurd hcon (by simp)
    refine mem_removeSpansByIds_of_kept hrs hss hsp ?_
    simp only [← Bool.not_eq_true]
    intro hcon
    exact hnotin (by simpa using hcon)

theorem c10_frame_witness :
    UniqueSpanIds tdE2E ∧
    processTraces hashZero itsDropZero 10 tdE2E
      = some [⟨0, [⟨"keep", [⟨1, 0, 7, 0⟩]⟩]⟩] ∧
    (∃ rs' ∈ ([⟨0, [⟨"keep", [(⟨1, 0, 7, 0⟩ : Span)]⟩]⟩] : Traces),
      rs'.resource = 0 ∧ ∃ ss' ∈ rs'.scopeSpans, ss'.scopeName = "keep" ∧
        (⟨1, 0, 7, 0⟩ : Span) ∈ ss'.spans) := by
  refine ⟨by decide, by decide, ?_⟩
  have := (c10_frame hashZero itsDropZero 10 tdE2E
      [⟨0, [⟨"keep", [⟨1, 0, 7, 0⟩]⟩]⟩] (by decide) (by decide)).1
    ⟨0, [⟨"keep", [⟨1, 0, 7, 0⟩]⟩, ⟨"drop", [⟨2, 1, 7, 0⟩, ⟨3, 2, 7, 0⟩]⟩]⟩
    (by decide) ⟨"keep", [⟨1, 0, 7, 0⟩]⟩ (by decide) (by decide)
    ⟨1, 0, 7, 0⟩ (by decide)
  exact this

/-- C7 counterexample: on the self-referential batch `td7loop` the
evaluator terminates and returns no marks because the root list is empty:
the single span (identity 1, configured leaf scope) is visited zero times,
not exactly once. -/
theorem c7_counterexample :
    getScopeBranchesToUnsample itsDropZero (spansToTraceTree td7loop) 2
      = some [] ∧
    (spansToTraceTree td7loop).roots = [] ∧
    idsOf (fullSpansOf td7loop) = [1] ∧
    itsDropZero.config.scopeLeaves.contains "drop" = true := by decide

/-- C7 (amended): on every batch with unique span identities — cyclic or
self-referential parent references included — the evaluator terminates
(fuel `numSpans + 1` suffices since no call chain from a root repeats a
span), and each span is reached from at most one root, so no span is
visited more than once; spans lying on parent cycles have no root above
them and are never visited at all. -/
theorem c7_termination :
    ∀ (its : InTraceSamplerProcessor) (td : Traces),
      UniqueSpanIds td →
      (∃ ids, getScopeBranchesToUnsample its (spansToTraceTree td)
        ((fullSpansOf td).length + 1) = some ids) ∧
      (∀ x r1 r2, r1 ∈ (spansToTraceTree td).roots →
        r2 ∈ (spansToTraceTree td).roots →
        Reach (spansToTraceTree td) r1 x →
        Reach (spansToTraceTree td) r2 x → r1 = r2) := by
  intro its td hnd
  exact ⟨unsample_terminates its hnd,
    fun x r1 r2 h1 h2 hr1 hr2 => visiting_root_unique hnd h1 h2 hr1 hr2⟩

theorem c7_termination_witness :
    UniqueSpanIds td7loop ∧
    (∃ ids, getScopeBranchesToUnsample itsDropZero (spansToTraceTree td7loop)
      ((fullSpansOf td7loop).length + 1) = some ids) :=
  ⟨by decide, (c7_termination itsDropZero td7loop (by decide)).1⟩

/-- C1: on a single-trace, unique-identity, acyclic batch not wholly
accepted by the sampling decision, a span's identity is in the to-remove
set iff it is a span of the batch whose own scope name is a configured
leaf and every span reachable from it through the children mapping also
carries a leaf scope; in particular a leaf span (no children) is marked
iff its own scope matches, and with `ScopeLeaves = {"A"}` the chain
root(A)→child(A)→grandchild(B) keeps all three spans while
root(A)→child(A)→grandchild(A) loses all three. -/
theorem c1_subtree_marking :
    (∀ (hash : Nat → Nat → Nat) (its : InTraceSamplerProcessor) (td : Traces)
      (tid fuel : Nat) (ids : List Nat),
      UniqueSpanIds td → AcyclicParents td →
      getSingleTraceId td = some tid →
      ¬ (hash tid its.config.hashSeed &&& bitMaskHashBuckets
          < its.scaledSamplingRate) →
      getScopeBranchesToUnsample its (spansToTraceTree td) fuel = some ids →
      (∀ x, x ∈ ids ↔
        x ∈ idsOf (fullSpansOf td) ∧
        scopeIsLeaf its (spansToTraceTree td) x = true ∧
        (∀ d, Reach (spansToTraceTree td) x d →
          scopeIsLeaf its (spansToTraceTree td) d = true)) ∧
      (∀ x, x ∈ idsOf (fullSpansOf td) →
        (spansToTraceTree td).children x = [] →
        (x ∈ ids ↔ scopeIsLeaf its (spansToTraceTree td) x = true))) ∧
    processTraces hashZero itsLeafA 10 tdChainKeep = some tdChainKeep ∧
    processTraces hashZero itsLeafA 10 tdChainDrop = some [] := by
  refine ⟨?_, by decide, by decide⟩
  intro hash its td tid fuel ids hnd hacy _ _ hm
  have hsem := unsample_mem_iff hnd hacy hm
  have hmain : ∀ x, x ∈ ids ↔ x ∈ idsOf (fullSpansOf td) ∧
      scopeIsLeaf its (spansToTraceTree td) x = true ∧
      (∀ d, Reach (spansToTraceTree td) x d →
        scopeIsLeaf its (spansToTraceTree td) d = true) := by
    intro x
    rw [hsem x]
    constructor
    · rintro ⟨h1, h2⟩
      exact ⟨h1, h2 x (Reach.refl x), h2⟩
    · rintro ⟨h1, _, h3⟩
      exact ⟨h1, h3⟩
  refine ⟨hmain, ?_⟩
  intro x hx hch
  rw [hmain x]
  constructor
  · rintro ⟨_, h2, _⟩
    exact h2
  · intro hleaf
    refine ⟨hx, hleaf, ?_⟩
    intro d hd
    rcases reach_cases hd with rfl | ⟨c, hc, _⟩
    · exact hleaf
    · rw [hch] at hc
      exact absurd hc (List.not_mem_nil c)

theorem c1_subtree_marking_witness :
    UniqueSpanIds tdE2E ∧
    getSingleTraceId tdE2E = some 7 ∧
    getScopeBranchesToUnsample itsDropZero (spansToTraceTree tdE2E) 10
      = some [3, 2] ∧
    ((3 : Nat) ∈ ([3, 2] : List Nat) ↔
      scopeIsLeaf itsDropZero (spansToTraceTree tdE2E) 3 = true) := by
  refine ⟨by decide, by decide, by decide, ?_⟩
  exact (c1_subtree_marking.1 hashZero itsDropZero tdE2E 7 10 [3, 2]
    (by decide)
    (fun fs hfs => ⟨5, (by decide : ∀ fs ∈ fullSpansOf tdE2E,
      chainExits (fullSpansOf tdE2E) 5 fs.span.spanID = true) fs hfs⟩)
    (by decide) (by decide) (by decide)).2 3 (by decide) (by decide)

/-- C6: on a batch with unique span identities and acyclic parent
references, applying the transform to its own output removes nothing
further: a second `processTraces` run returns the pruned batch
unchanged. -/
theorem c6_idempotent :
    ∀ (hash : Nat → Nat → Nat) (its : InTraceSamplerProcessor) (fuel : Nat)
      (td out : Traces),
      UniqueSpanIds td → AcyclicParents td →
      processTraces hash its fuel td = some out →
      processTraces hash its ((fullSpansOf out).length + 1) out = some out := by
  intro hash its fuel td out hnd hacy h
  rcases hst : getSingleTraceId td with _ | tid
  · rw [processTraces_hetero hst] at h
    injection h with h
    subst h
    exact processTraces_hetero hst
  · rw [processTraces_eq_of_some hst] at h
    by_cases hdec : hash tid its.config.hashSeed &&& bitMaskHashBuckets
        < its.scaledSamplingRate
    · rw [if_pos hdec] at h
      injection h with h
      subst h
      rw [processTraces_eq_of_some hst, if_pos hdec]
    · rw [if_neg hdec] at h
      rcases hm : getScopeBranchesToUnsample its (spansToTraceTree td) fuel
        with _ | ids
      · rw [processTracesPrune_none hm] at h
        exact absurd h (by simp)
      · rw [processTracesPrune_eq_of_some hm] at h
        have hsem := unsample_mem_iff hnd hacy hm
        by_cases hids : ids.isEmpty
        · rw [if_pos hids] at h
          injection h with h
          subst h
          rw [processTraces_eq_of_some hst, if_neg hdec]
          obtain ⟨ids2, hm2⟩ := unsample_terminates its hnd
          rw [processTracesPrune_eq_of_some hm2]
          have hids2 : ids2.isEmpty = true := by
            rw [List.isEmpty_iff, List.eq_nil_iff_forall_not_mem]
            intro y hy
            have hy2 := unsample_mem_sound hm2 y hy
            have hyin : y ∈ ids := (hsem y).mpr hy2
            rw [List.isEmpty_iff] at hids
            rw [hids] at hyin
            exact absurd hyin (List.not_mem_nil y)
          rw [if_pos hids2]
        · rw [if_neg hids] at h
          injection h with h
          subst h
          have hnd2 : UniqueSpanIds
              (removeSpansByIds (fun sid => ids.contains sid) td) :=
            nodup_ids_remove hnd
          rcases hst2 : getSingleTraceId
              (removeSpansByIds (fun sid => ids.contains sid) td) with _ | tid2
          · exact processTraces_hetero hst2
          · have htid : tid2 = tid := by
              rcases getSingleTraceId_some_iff.mp hst2 with ⟨hne2, hall2⟩
              rcases getSingleTraceId_some_iff.mp hst with ⟨_, hall⟩
              rcases hl2 : allSpansOf
                  (removeSpansByIds (fun sid => ids.contains sid) td)
                with _ | ⟨s, rest⟩
              · exact absurd hl2 hne2
              · have hs2 : s ∈ allSpansOf
                    (removeSpansByIds (fun sid => ids.contains sid) td) := by
                  rw [hl2]
                  exact List.mem_cons_self s rest
                have e1 := hall2 s hs2
                have e2 := hall s (allSpans_remove_sub s hs2)
                rw [← e1, ← e2]
            subst htid
            rw [processTraces_eq_of_some hst2, if_neg hdec]
            obtain ⟨ids2, hm2⟩ := unsample_terminates its hnd2
            rw [processTracesPrune_eq_of_some hm2]
            have hids2 : ids2.isEmpty = true := by
              rw [List.isEmpty_iff, List.eq_nil_iff_forall_not_mem]
              intro y hy
              have hy2 := unsample_mem_sound hm2 y hy
              exact no_prunable_survivor hnd hsem y hy2.1 hy2.2
            rw [if_pos hids2]

theorem c6_idempotent_witness :
    UniqueSpanIds tdE2E ∧
    processTraces hashZero itsDropZero 10 tdE2E
      = some [⟨0, [⟨"keep", [⟨1, 0, 7, 0⟩]⟩]⟩] ∧
    processTraces hashZero itsDropZero
      ((fullSpansOf [⟨0, [⟨"keep", [(⟨1, 0, 7, 0⟩ : Span)]⟩]⟩]).length + 1)
      [⟨0, [⟨"keep", [⟨1, 0, 7, 0⟩]⟩]⟩]
      = some [⟨0, [⟨"keep", [⟨1, 0, 7, 0⟩]⟩]⟩] := by
  refine ⟨by decide, by decide, ?_⟩
  exact c6_idempotent hashZero itsDropZero 10 tdE2E
    [⟨0, [⟨"keep", [⟨1, 0, 7, 0⟩]⟩]⟩] (by decide)
    (fun fs hfs => ⟨5, (by decide : ∀ fs ∈ fullSpansOf tdE2E,
      chainExits (fullSpansOf tdE2E) 5 fs.span.spanID = true) fs hfs⟩)
    (by decide)

end InTraceSampler
